import Mathlib

/-! Verification of `core/vm/stack.go`.

A shallow embedding of the operand stack (`Stack`), the subroutine return
stack (`ReturnStack`) and their two `sync.Pool`s, followed by the properties
of the specification that are settled on this embedding.

Conventions of the embedding:

* a Go method with a pointer receiver becomes a function from the receiver's
  value to `Except Fault (result × receiver after the call)`; a run-time panic
  is the `error` case, and no method of the file writes to its receiver before
  the point where it can panic;
* Go `int` is `Int`, every arithmetic result being wrapped to 64 bits two's
  complement by `wrapInt`;
* the fixed array `[limit]uint256.Int` is a function `Fin limit → Word`, so a
  slot outside `0 .. limit-1` does not exist, as in Go;
* a pointer `*uint256.Int` into the array is the index of the slot it points
  to;
* the field `length` is any `Int`; the data model's `0 <= length <= limit`,
  which every method preserves, is a hypothesis where a property needs it.
-/

namespace Vm

/-! ## Machine integers and faults -/

/-- The value type `uint256.Int`: an unsigned integer below `2^256`. -/
abbrev Word := Fin (2 ^ 256)

/-- Go `int` arithmetic on a 64-bit target: the exact result wrapped into
`-2^63 .. 2^63-1`. -/
def wrapInt (x : Int) : Int :=
  (x + 9223372036854775808) % 18446744073709551616 - 9223372036854775808

/-- Run-time panics raised by the operations of the file. -/
inductive Fault where
  /-- Index or slice bounds out of range (Go `runtime.boundsError`). -/
  | boundsError
  /-- Go `makeslice: len out of range`. -/
  | makeSliceLen
  deriving DecidableEq, Repr

/-! ## Stack -/

/-- Source: `const limit = 2048`. -/
def limit : Nat := 2048

/-- Source: `type Stack struct { data [limit]uint256.Int; length int }`. -/
structure Stack where
  data : Fin limit → Word
  length : Int

/-- The bounds check of an index expression `st.data[i]`: the slot when
`0 <= i < limit`, otherwise nothing (Go panics). -/
def slot (i : Int) : Option (Fin limit) :=
  if h : 0 ≤ i ∧ i < (limit : Int) then
    some ⟨i.toNat, by
      have h1 := h.1
      have h2 := h.2
      omega⟩
  else none

/-- The value behind a pointer into the backing array. -/
def Stack.load (st : Stack) (p : Fin limit) : Word := st.data p

/-- A write through a pointer obtained from `peek` or `Back`. -/
def Stack.store (st : Stack) (p : Fin limit) (v : Word) : Stack :=
  { st with data := Function.update st.data p v }

/-- Source: `new(Stack)`, the zero value. -/
def Stack.new : Stack := { data := fun _ => 0, length := 0 }

/-- The first `n` slots of the backing array, bottom to top: the elements of
the slice `st.data[:n]`. -/
def sliceTo (data : Fin limit → Word) (n : Nat) (h : n ≤ limit) : List Word :=
  List.ofFn (fun i : Fin n => data ⟨i.val, lt_of_lt_of_le i.isLt h⟩)

/-- Source: `Stack.Data`.
`make([]uint256.Int, st.length)` panics on a negative length and on a length
whose 32-byte elements need more than the allocation limit of a 64-bit target
(`2^48` bytes); the slice expression `st.data[:st.length]` panics on a length
above `limit`; `copy` then fills `tmp` with the slots `0 .. length-1`.  The
receiver is not written. -/
def Stack.Data (st : Stack) : Except Fault (List Word × Stack) :=
  if st.length < 0 ∨ 281474976710656 < 32 * st.length then .error .makeSliceLen
  else if h : st.length ≤ (limit : Int) then
    .ok (sliceTo st.data st.length.toNat (by omega), st)
  else .error .boundsError

/-- Source: `Stack.push`.
`st.data[st.length] = d` (bounds-checked), then `st.length++`. -/
def Stack.push (st : Stack) (d : Word) : Except Fault (Unit × Stack) :=
  match slot st.length with
  | none => .error .boundsError
  | some i =>
    .ok ((), { data := Function.update st.data i d, length := wrapInt (st.length + 1) })

/-- Source: `Stack.pop`.
`ret = st.data[st.length-1]` (bounds-checked), then `st.length--`. -/
def Stack.pop (st : Stack) : Except Fault (Word × Stack) :=
  match slot (wrapInt (st.length - 1)) with
  | none => .error .boundsError
  | some i => .ok (st.data i, { st with length := wrapInt (st.length - 1) })

/-- Source: `Stack.len`. -/
def Stack.len (st : Stack) : Except Fault (Int × Stack) :=
  .ok (st.length, st)

/-- The effect of `copy(st.data[low:high], ds)` on the backing array: the
elements of `ds` are written to the slots `low, low+1, ...` for as long as
both the destination slice and `ds` last. -/
def copyInto (data : Fin limit → Word) (low high : Nat) (hh : high ≤ limit) :
    List Word → Fin limit → Word
  | [] => data
  | d :: ds =>
    if h : low < high then
      copyInto (Function.update data ⟨low, lt_of_lt_of_le h hh⟩ d) (low + 1) high hh ds
    else data

/-- Source: `Stack.pushN`.
`toAdd := len(ds)`; the slice expression `st.data[st.length:st.length+toAdd]`
panics unless `0 <= low <= high <= limit`; `copy` fills it from `ds`; then
`st.length += toAdd`.  The length of a Go slice is an `int`, so `toAdd` is
the length of `ds` itself. -/
def Stack.pushN (st : Stack) (ds : List Word) : Except Fault (Unit × Stack) :=
  let toAdd : Int := (ds.length : Int)
  let high : Int := wrapInt (st.length + toAdd)
  if h : 0 ≤ st.length ∧ st.length ≤ high ∧ high ≤ (limit : Int) then
    .ok ((), { data := copyInto st.data st.length.toNat high.toNat (by omega) ds,
               length := wrapInt (st.length + toAdd) })
  else .error .boundsError

/-- Source: `Stack.swap`.
The two right-hand reads `st.data[st.length-1]` and `st.data[st.length-n]`
are evaluated (and bounds-checked) before either assignment; then
`st.data[st.length-n]` receives the old top and `st.data[st.length-1]` the old
element at depth `n`, in that order. -/
def Stack.swap (st : Stack) (n : Int) : Except Fault (Unit × Stack) :=
  match slot (wrapInt (st.length - n)), slot (wrapInt (st.length - 1)) with
  | some a, some b =>
    .ok ((), { st with
      data := Function.update (Function.update st.data a (st.data b)) b (st.data a) })
  | _, _ => .error .boundsError

/-- Source: `Stack.dup`.
`st.push(st.data[st.length-n])`: the read is bounds-checked, then `push`. -/
def Stack.dup (st : Stack) (n : Int) : Except Fault (Unit × Stack) :=
  match slot (wrapInt (st.length - n)) with
  | none => .error .boundsError
  | some a => st.push (st.data a)

/-- Source: `Stack.peek`.
`&st.data[st.length-1]`: the pointer to the top slot (bounds-checked). -/
def Stack.peek (st : Stack) : Except Fault (Fin limit × Stack) :=
  match slot (wrapInt (st.length - 1)) with
  | none => .error .boundsError
  | some i => .ok (i, st)

/-- Source: `Stack.Back`.
`&st.data[st.length-n-1]`: the pointer to the slot `n` below the top
(bounds-checked). -/
def Stack.Back (st : Stack) (n : Int) : Except Fault (Fin limit × Stack) :=
  match slot (wrapInt (wrapInt (st.length - n) - 1)) with
  | none => .error .boundsError
  | some i => .ok (i, st)

/-- The calls `push(v1)`, `push(v2)`, ... in that order, stopping at the first
fault. -/
def Stack.pushAll (st : Stack) : List Word → Except Fault (Unit × Stack)
  | [] => .ok ((), st)
  | v :: vs =>
    match st.push v with
    | .error e => .error e
    | .ok (_, st1) => Stack.pushAll st1 vs

/-! ## ReturnStack -/

/-- A return address, Go `uint32`. -/
abbrev Addr := Fin (2 ^ 32)

/-- Source: `type ReturnStack struct { data []uint32 }`.
The slice is its sequence of elements: its capacity is read by no operation
of the file, and its backing array is shared with no other slice. -/
structure ReturnStack where
  data : List Addr

/-- Source: the `New` function of `rStackPool`,
`&ReturnStack{data: make([]uint32, 0, 10)}`. -/
def ReturnStack.new : ReturnStack := { data := [] }

/-- Source: `ReturnStack.push`, `st.data = append(st.data, d)`. -/
def ReturnStack.push (st : ReturnStack) (d : Addr) : Except Fault (Unit × ReturnStack) :=
  .ok ((), { data := st.data ++ [d] })

/-- Source: `ReturnStack.pop`.
`ret = st.data[len(st.data)-1]` (bounds-checked; `len` is at least zero, so
the subtraction cannot overflow), then `st.data = st.data[:len(st.data)-1]`. -/
def ReturnStack.pop (st : ReturnStack) : Except Fault (Addr × ReturnStack) :=
  let i : Int := (st.data.length : Int) - 1
  if h : 0 ≤ i ∧ i < (st.data.length : Int) then
    .ok (st.data.get ⟨i.toNat, by omega⟩, { data := st.data.take i.toNat })
  else .error .boundsError

/-- The calls `push(addr1)`, ..., `push(addrk)` in that order, stopping at the
first fault. -/
def ReturnStack.pushAll (st : ReturnStack) : List Addr → Except Fault (Unit × ReturnStack)
  | [] => .ok ((), st)
  | a :: as =>
    match st.push a with
    | .error e => .error e
    | .ok (_, st1) => ReturnStack.pushAll st1 as

/-- The number `k` of calls of `pop()`, stopping at the first fault; the
results are listed in the order in which they were returned. -/
def ReturnStack.popN (st : ReturnStack) : Nat → Except Fault (List Addr × ReturnStack)
  | 0 => .ok ([], st)
  | k + 1 =>
    match st.pop with
    | .error e => .error e
    | .ok (a, st1) =>
      match ReturnStack.popN st1 k with
      | .error e => .error e
      | .ok (as, st2) => .ok (a :: as, st2)


/-- The stack of the specification's scenario after `push 10, 20, 30`; the
slots above the length hold a stale `7`. -/
def scenarioStack : Stack :=
  { data := fun i =>
      if i.val = 0 then 10 else if i.val = 1 then 20 else if i.val = 2 then 30 else 7,
    length := 3 }

/-! ## The pools

`stackPool` and `rStackPool` are `sync.Pool`s of pointers.  The instances live
in a heap, a pointer being the index of its instance; the pool is the list of
the pointers it stores.  `sync.Pool` is modelled by its documented contract:
`Get` removes and returns an arbitrary item or, at its own choice or when
there is none, the result of `New`; `Put` adds an item; the pool may drop an
item at any time. -/

/-- The heap of instances and the contents of the one `sync.Pool` for them. -/
structure World (α : Type) where
  heap : List α
  pool : List Nat

/-- The state at program start: nothing constructed, the pool empty. -/
def World.init {α : Type} : World α := { heap := [], pool := [] }

/-- The call `sync.Pool.Get`: with `pick = some i` and an `i`-th item in the
pool that item is removed and returned; otherwise `New` constructs a new
one and its pointer is returned. -/
def World.get {α : Type} (w : World α) (New : α) (pick : Option Nat) : Nat × World α :=
  match pick with
  | none => (w.heap.length, { w with heap := w.heap ++ [New] })
  | some i =>
    match w.pool[i]? with
    | some p => (p, { w with pool := w.pool.eraseIdx i })
    | none => (w.heap.length, { w with heap := w.heap ++ [New] })

/-- The call `sync.Pool.Put`. -/
def World.put {α : Type} (w : World α) (p : Nat) : World α :=
  { w with pool := p :: w.pool }

/-- The pool drops its `i`-th item. -/
def World.drop {α : Type} (w : World α) (i : Nat) : World α :=
  { w with pool := w.pool.eraseIdx i }

/-- A write `*p = f(*p)` to the instance behind the pointer `p`. -/
def World.modify {α : Type} (w : World α) (p : Nat) (f : α → α) : World α :=
  { w with heap := w.heap.modify f p }

/-- Source: `newstack`, `stackPool.Get().(*Stack)` with
`New = func() { return new(Stack) }`. -/
def newstack (w : World Stack) (pick : Option Nat) : Nat × World Stack :=
  w.get Stack.new pick

/-- Source: `returnStack`, `s.length = 0` then `stackPool.Put(s)`.
A pointer that points to no instance is the nil pointer: the write panics and
nothing is put. -/
def returnStack (w : World Stack) (s : Nat) : World Stack :=
  if s < w.heap.length then (w.modify s (fun st => { st with length := 0 })).put s else w

/-- Source: `newReturnStack`, `rStackPool.Get().(*ReturnStack)` with
`New = func() { return &ReturnStack{data: make([]uint32, 0, 10)} }`. -/
def newReturnStack (w : World ReturnStack) (pick : Option Nat) : Nat × World ReturnStack :=
  w.get ReturnStack.new pick

/-- Source: `returnRStack`, `rs.data = rs.data[:0]` then `rStackPool.Put(rs)`.
A pointer that points to no instance is the nil pointer: the write panics and
nothing is put. -/
def returnRStack (w : World ReturnStack) (rs : Nat) : World ReturnStack :=
  if rs < w.heap.length then
    (w.modify rs (fun st => { st with data := st.data.take 0 })).put rs
  else w

/-- A method call on a `Stack`, with its arguments. -/
inductive StackOp where
  | Data
  | push (d : Word)
  | pushN (ds : List Word)
  | pop
  | len
  | swap (n : Int)
  | dup (n : Int)
  | peek
  | Back (n : Int)

/-- What a method call returns. -/
inductive Ret where
  | unit
  | word (w : Word)
  | int (i : Int)
  | ptr (p : Fin limit)
  | words (l : List Word)

/-- The result of a call with its return value tagged. -/
def tagged {ρ σ : Type} (f : ρ → Ret) (r : Except Fault (ρ × σ)) : Except Fault (Ret × σ) :=
  match r with
  | .ok (x, s) => .ok (f x, s)
  | .error e => .error e

/-- The method call `o` on the stack `st`. -/
def Stack.exec (st : Stack) : StackOp → Except Fault (Ret × Stack)
  | .Data => tagged Ret.words st.Data
  | .push d => tagged (fun _ => Ret.unit) (st.push d)
  | .pushN ds => tagged (fun _ => Ret.unit) (st.pushN ds)
  | .pop => tagged Ret.word st.pop
  | .len => tagged Ret.int st.len
  | .swap n => tagged (fun _ => Ret.unit) (st.swap n)
  | .dup n => tagged (fun _ => Ret.unit) (st.dup n)
  | .peek => tagged Ret.ptr st.peek
  | .Back n => tagged Ret.ptr (st.Back n)

/-- The receiver after the call `o`; a call that panics has written nothing. -/
def Stack.after (st : Stack) (o : StackOp) : Stack :=
  match st.exec o with
  | .ok (_, st1) => st1
  | .error _ => st

/-- One event in the life of `stackPool`: the two pool functions, a method
call or a write through a pointer from `peek`/`Back` on the instance behind
`s`, and the pool dropping an item. -/
inductive Call where
  | newstack (pick : Option Nat)
  | returnStack (s : Nat)
  | method (s : Nat) (o : StackOp)
  | store (s : Nat) (p : Fin limit) (v : Word)
  | drop (i : Nat)

/-- One event: the new state and, for `newstack`, the instance behind the
returned pointer as the caller finds it.  Nothing here checks who uses a
pointer: as in the source, a method call or a write reaches the instance also
while it is idle in the pool. -/
def step (w : World Stack) : Call → World Stack × List (Option Stack)
  | .newstack pick =>
    let r := newstack w pick
    (r.2, [r.2.heap[r.1]?])
  | .returnStack s => (returnStack w s, [])
  | .method s o => (w.modify s (fun st => st.after o), [])
  | .store s p v => (w.modify s (fun st => st.store p v), [])
  | .drop i => (w.drop i, [])

/-- A history of events from the state `w`: the final state and the instances
that the `newstack` calls returned, in order. -/
def run (w : World Stack) : List Call → World Stack × List (Option Stack)
  | [] => (w, [])
  | c :: cs => ((run (step w c).1 cs).1, (step w c).2 ++ (run (step w c).1 cs).2)

/-- The event is not a method call on an instance that is idle in the pool. -/
def noIdleUse (w : World Stack) : Call → Bool
  | .method s _ => !(w.pool.contains s)
  | _ => true

/-- No method call of the history is made on an instance while that instance
is idle in the pool. -/
def disciplined (w : World Stack) : List Call → Bool
  | [] => true
  | c :: cs => noIdleUse w c && disciplined (step w c).1 cs

/-- The number of `newstack` calls of a history. -/
def acquisitions : List Call → Nat
  | [] => 0
  | .newstack _ :: cs => acquisitions cs + 1
  | _ :: cs => acquisitions cs

/-- A method call on a `ReturnStack`. -/
inductive RStackOp where
  | push (d : Addr)
  | pop

/-- The receiver after the call `o`; a call that panics has written nothing. -/
def ReturnStack.after (st : ReturnStack) : RStackOp → ReturnStack
  | .push d =>
    match st.push d with
    | .ok (_, st1) => st1
    | .error _ => st
  | .pop =>
    match st.pop with
    | .ok (_, st1) => st1
    | .error _ => st

/-- One event in the life of `rStackPool`. -/
inductive RCall where
  | newReturnStack (pick : Option Nat)
  | returnRStack (rs : Nat)
  | method (rs : Nat) (o : RStackOp)
  | drop (i : Nat)

/-- One event: the new state and, for `newReturnStack`, the instance behind
the returned pointer as the caller finds it.  Nothing here checks who uses a
pointer: as in the source, a push or pop reaches the instance also while it is
idle in the pool. -/
def rstep (w : World ReturnStack) : RCall → World ReturnStack × List (Option ReturnStack)
  | .newReturnStack pick =>
    let r := newReturnStack w pick
    (r.2, [r.2.heap[r.1]?])
  | .returnRStack rs => (returnRStack w rs, [])
  | .method rs o => (w.modify rs (fun st => st.after o), [])
  | .drop i => (w.drop i, [])

/-- A history of events from the state `w`: the final state and the instances
that the `newReturnStack` calls returned, in order. -/
def rrun (w : World ReturnStack) : List RCall → World ReturnStack × List (Option ReturnStack)
  | [] => (w, [])
  | c :: cs => ((rrun (rstep w c).1 cs).1, (rstep w c).2 ++ (rrun (rstep w c).1 cs).2)

/-- The event is not a push or pop on an instance that is idle in the pool. -/
def rnoIdleUse (w : World ReturnStack) : RCall → Bool
  | .method rs _ => !(w.pool.contains rs)
  | _ => true

/-- No push or pop of the history is made on an instance while that instance
is idle in the pool. -/
def rdisciplined (w : World ReturnStack) : List RCall → Bool
  | [] => true
  | c :: cs => rnoIdleUse w c && rdisciplined (rstep w c).1 cs

/-- The number of `newReturnStack` calls of a history. -/
def racquisitions : List RCall → Nat
  | [] => 0
  | .newReturnStack _ :: cs => racquisitions cs + 1
  | _ :: cs => racquisitions cs

/-- The scenario of the specification: acquire, push 1, release, acquire
again, the pool handing the released instance out again. -/
def scenarioCalls : List Call :=
  [.newstack none, .method 0 (.push 1), .returnStack 0, .newstack (some 0)]

/-- The same scenario for the return stack. -/
def scenarioRCalls : List RCall :=
  [.newReturnStack none, .method 0 (.push 1), .returnRStack 0, .newReturnStack (some 0)]

/-- A history with a use after release: acquire, release, push 1 on the
released instance, acquire again, the pool handing that instance out. -/
def staleUseCalls : List Call :=
  [.newstack none, .returnStack 0, .method 0 (.push 1), .newstack (some 0)]

/-- The same use after release for the return stack. -/
def staleUseRCalls : List RCall :=
  [.newReturnStack none, .returnRStack 0, .method 0 (.push 1), .newReturnStack (some 0)]

/-- Every pointer in the pool points to an instance that satisfies `good`. -/
def World.Inv {α : Type} (good : α → Prop) (w : World α) : Prop :=
  ∀ p ∈ w.pool, ∃ a, w.heap[p]? = some a ∧ good a

/-- A stack filled to the capacity of its backing array. -/
def fullStack : Stack := { data := fun _ => 0, length := 2048 }

/-- The call ended in a run-time panic. -/
def faulted {ρ : Type} (r : Except Fault ρ) : Bool :=
  match r with
  | .ok _ => false
  | .error _ => true

/-- The precondition that the specification (section 4.1) states for each
call; it is the caller that checks it, the methods do not. -/
def StackOp.pre (st : Stack) : StackOp → Prop
  | .Data => True
  | .push _ => st.length < (limit : Int)
  | .pushN ds => st.length + (ds.length : Int) ≤ (limit : Int)
  | .pop => 0 < st.length
  | .len => True
  | .swap n => 1 ≤ n ∧ n ≤ st.length
  | .dup n => 1 ≤ n ∧ n ≤ st.length
  | .peek => 0 < st.length
  | .Back n => 0 ≤ n ∧ n < st.length

/-- Two stacks with the same length and the same values in the slots below
the length; the slots from the length on are unrelated. -/
def agree (s t : Stack) : Prop :=
  t.length = s.length ∧ ∀ i : Fin limit, (i.val : Int) < s.length → t.data i = s.data i

/-- One use of a stack by the frame that owns it: a method call, or a write
through a pointer that `peek` or `Back` returned. -/
inductive Use where
  | method (o : StackOp)
  | store (p : Fin limit) (v : Word)

/-- The stack after one use. -/
def Stack.use (st : Stack) : Use → Stack
  | .method o => st.after o
  | .store p v => st.store p v

/-- The stack after a sequence of uses. -/
def Stack.uses (st : Stack) : List Use → Stack
  | [] => st
  | u :: us => Stack.uses (st.use u) us

/-- One line written to standard output by `Print`: a fixed text
(`fmt.Println`), or the item line `fmt.Printf("%-3d  %v\n", i, val)` given by
its two arguments. -/
inductive Line where
  | text (s : String)
  | item (i : Nat) (val : Word)
  deriving DecidableEq

/-- Source: `Stack.Print`.
`len(st.data)` is the length of the array type, `limit`; `range st.data`
visits the indices `0 .. limit-1` in order.  The receiver is not written. -/
def Stack.Print (st : Stack) : Except Fault (List Line × Stack) :=
  let body : List Line :=
    if 0 < limit then
      (List.finRange limit).map (fun i => Line.item i.val (st.data i))
    else [Line.text "-- empty --"]
  .ok ([Line.text "### stack ###"] ++ body ++ [Line.text "#############"], st)

/-- The scenario stack with a different stale value in slot 5. -/
def staleTwin : Stack := scenarioStack.store ⟨5, by decide⟩ 9

/-! ## Basic facts about the embedding -/

theorem wrapInt_of_range (x : Int) (h1 : -9223372036854775808 ≤ x)
    (h2 : x < 9223372036854775808) : wrapInt x = x := by
  unfold wrapInt
  omega

theorem slot_of_range (i : Int) (h0 : 0 ≤ i) (h1 : i < (limit : Int)) :
    ∃ p : Fin limit, slot i = some p ∧ p.val = i.toNat := by
  unfold slot
  rw [dif_pos ⟨h0, h1⟩]
  exact ⟨_, rfl, rfl⟩

theorem slot_val (i : Int) (p : Fin limit) (h : slot i = some p) :
    (p.val : Int) = i := by
  unfold slot at h
  split at h
  · rename_i hr
    have h0 := hr.1
    injection h with h
    rw [← h]
    simp only
    omega
  · cases h

theorem sliceTo_length (data : Fin limit → Word) (n : Nat) (h : n ≤ limit) :
    (sliceTo data n h).length = n := by
  unfold sliceTo
  simp

theorem sliceTo_getElem? (data : Fin limit → Word) (n : Nat) (h : n ≤ limit)
    (j : Nat) (hj : j < n) :
    (sliceTo data n h)[j]? = some (data ⟨j, lt_of_lt_of_le hj h⟩) := by
  unfold sliceTo
  rw [List.getElem?_ofFn]
  simp [List.ofFnNthVal, hj]

theorem sliceTo_congr (d1 d2 : Fin limit → Word) (n : Nat) (h : n ≤ limit)
    (hag : ∀ i : Fin limit, i.val < n → d1 i = d2 i) :
    sliceTo d1 n h = sliceTo d2 n h := by
  unfold sliceTo
  congr 1
  funext i
  exact hag _ i.isLt

/-- The snapshot of a stack whose length is within `0 .. limit`. -/
theorem Data_ok (st : Stack) (h0 : 0 ≤ st.length) (h1 : st.length ≤ (limit : Int)) :
    ∃ d, st.Data = .ok (d, st) ∧ d.length = st.length.toNat ∧
      ∀ (j : Nat) (hj : j < limit), (j : Int) < st.length → d[j]? = some (st.data ⟨j, hj⟩) := by
  have hl : (limit : Int) = 2048 := rfl
  unfold Stack.Data
  rw [if_neg (by omega), dif_pos h1]
  refine ⟨_, rfl, sliceTo_length _ _ _, ?_⟩
  intro j hj hlt
  exact sliceTo_getElem? _ _ _ j (by omega)

/-- Two stacks of equal length that agree on the slots below the length have
the same snapshot. -/
theorem Data_congr (s t : Stack) (d : List Word) (hl : t.length = s.length)
    (hag : ∀ i : Fin limit, (i.val : Int) < s.length → t.data i = s.data i)
    (hd : s.Data = .ok (d, s)) : t.Data = .ok (d, t) := by
  obtain ⟨sd, sl⟩ := s
  obtain ⟨td, tl⟩ := t
  simp only at hl hag
  subst hl
  unfold Stack.Data at hd ⊢
  simp only at hd ⊢
  split at hd
  · cases hd
  · rename_i hneg
    rw [if_neg hneg]
    split at hd
    · rename_i hle
      rw [dif_pos hle]
      injection hd with hd
      injection hd with hd _
      rw [← hd]
      congr 2
      apply sliceTo_congr
      intro i hi
      apply hag
      omega
    · cases hd

theorem push_ok (st : Stack) (v : Word) (h0 : 0 ≤ st.length)
    (h1 : st.length < (limit : Int)) :
    ∃ p : Fin limit, p.val = st.length.toNat ∧
      st.push v = .ok ((), { data := Function.update st.data p v, length := st.length + 1 }) := by
  obtain ⟨p, hp, hv⟩ := slot_of_range st.length h0 h1
  refine ⟨p, hv, ?_⟩
  unfold Stack.push
  rw [hp]
  have hl : (limit : Int) = 2048 := rfl
  rw [wrapInt_of_range _ (by omega) (by omega)]

/-- A list is the snapshot as soon as it has the stack's length and lists the
slots below the length in order. -/
theorem Data_of_spec (st : Stack) (l : List Word) (h0 : 0 ≤ st.length)
    (h1 : st.length ≤ (limit : Int)) (hlen : l.length = st.length.toNat)
    (hget : ∀ (j : Nat) (hj : j < limit), (j : Int) < st.length →
      l[j]? = some (st.data ⟨j, hj⟩)) :
    st.Data = .ok (l, st) := by
  obtain ⟨d, hd, hdl, hdg⟩ := Data_ok st h0 h1
  have : d = l := by
    apply List.ext_getElem?
    intro j
    by_cases hj : (j : Int) < st.length
    · have hjl : j < limit := by omega
      rw [hdg j hjl hj, hget j hjl hj]
    · rw [List.getElem?_eq_none (by omega), List.getElem?_eq_none (by omega)]
  rw [← this]
  exact hd

/-- A snapshot that succeeds tells that the length is within `0 .. limit`. -/
theorem Data_ok_inv (st : Stack) (d : List Word) (st1 : Stack)
    (h : st.Data = .ok (d, st1)) :
    0 ≤ st.length ∧ st.length ≤ (limit : Int) ∧ d.length = st.length.toNat := by
  unfold Stack.Data at h
  split at h
  · cases h
  · split at h
    · injection h with h
      injection h with h _
      rw [← h, sliceTo_length]
      omega
    · cases h

theorem pop_ok (st : Stack) (h0 : 1 ≤ st.length) (h1 : st.length ≤ (limit : Int)) :
    ∃ p : Fin limit, p.val = (st.length - 1).toNat ∧
      st.pop = .ok (st.data p, { st with length := st.length - 1 }) := by
  have hl : (limit : Int) = 2048 := rfl
  obtain ⟨p, hp, hv⟩ := slot_of_range (st.length - 1) (by omega) (by omega)
  refine ⟨p, hv, ?_⟩
  unfold Stack.pop
  rw [wrapInt_of_range _ (by omega) (by omega), hp]

theorem swap_ok (st : Stack) (n : Int) (hn : 1 ≤ n) (hle : n ≤ st.length)
    (h1 : st.length ≤ (limit : Int)) :
    ∃ a b : Fin limit, a.val = (st.length - n).toNat ∧ b.val = (st.length - 1).toNat ∧
      st.swap n = .ok ((), { st with
        data := Function.update (Function.update st.data a (st.data b)) b (st.data a) }) := by
  have hl : (limit : Int) = 2048 := rfl
  obtain ⟨a, ha, hav⟩ := slot_of_range (st.length - n) (by omega) (by omega)
  obtain ⟨b, hb, hbv⟩ := slot_of_range (st.length - 1) (by omega) (by omega)
  refine ⟨a, b, hav, hbv, ?_⟩
  unfold Stack.swap
  rw [wrapInt_of_range _ (by omega) (by omega), wrapInt_of_range _ (by omega) (by omega),
    ha, hb]

theorem dup_ok (st : Stack) (n : Int) (hn : 1 ≤ n) (hle : n ≤ st.length)
    (h1 : st.length < (limit : Int)) :
    ∃ a p : Fin limit, a.val = (st.length - n).toNat ∧ p.val = st.length.toNat ∧
      st.dup n = .ok ((), { data := Function.update st.data p (st.data a),
                            length := st.length + 1 }) := by
  have hl : (limit : Int) = 2048 := rfl
  obtain ⟨a, ha, hav⟩ := slot_of_range (st.length - n) (by omega) (by omega)
  obtain ⟨p, hp, hpush⟩ := push_ok st (st.data a) (by omega) h1
  refine ⟨a, p, hav, hp, ?_⟩
  unfold Stack.dup
  rw [wrapInt_of_range _ (by omega) (by omega), ha]
  exact hpush

theorem peek_ok (st : Stack) (h0 : 1 ≤ st.length) (h1 : st.length ≤ (limit : Int)) :
    ∃ p : Fin limit, p.val = (st.length - 1).toNat ∧ st.peek = .ok (p, st) := by
  have hl : (limit : Int) = 2048 := rfl
  obtain ⟨p, hp, hv⟩ := slot_of_range (st.length - 1) (by omega) (by omega)
  refine ⟨p, hv, ?_⟩
  unfold Stack.peek
  rw [wrapInt_of_range _ (by omega) (by omega), hp]

theorem Back_ok (st : Stack) (n : Int) (hn : 0 ≤ n) (hlt : n < st.length)
    (h1 : st.length ≤ (limit : Int)) :
    ∃ p : Fin limit, p.val = (st.length - n - 1).toNat ∧ st.Back n = .ok (p, st) := by
  have hl : (limit : Int) = 2048 := rfl
  obtain ⟨p, hp, hv⟩ := slot_of_range (st.length - n - 1) (by omega) (by omega)
  refine ⟨p, hv, ?_⟩
  unfold Stack.Back
  rw [wrapInt_of_range (st.length - n) (by omega) (by omega),
    wrapInt_of_range _ (by omega) (by omega), hp]

/-! ## Properties -/

/-- C1: on a stack with `0 <= length < 2048`, `push(v)` followed at once by
`pop()` returns `v`; afterwards `len()` and `Data()` give what they gave before
the push. -/
theorem push_pop_roundtrip (st : Stack) (v : Word) (h0 : 0 ≤ st.length)
    (h1 : st.length < (limit : Int)) :
    ∃ st1 st2 d, st.push v = .ok ((), st1) ∧ st1.pop = .ok (v, st2) ∧
      st.len = .ok (st.length, st) ∧ st2.len = .ok (st.length, st2) ∧
      st.Data = .ok (d, st) ∧ st2.Data = .ok (d, st2) := by
  have hl : (limit : Int) = 2048 := rfl
  obtain ⟨p, hpv, hpush⟩ := push_ok st v h0 h1
  obtain ⟨q, hqv, hpop⟩ := pop_ok
    { data := Function.update st.data p v, length := st.length + 1 }
    (by simp only; omega) (by simp only; omega)
  obtain ⟨d, hd, -, -⟩ := Data_ok st h0 (by omega)
  have hqp : q = p := by
    apply Fin.ext
    rw [hqv, hpv]
    simp
  refine ⟨_, { data := Function.update st.data p v, length := st.length }, d,
    hpush, ?_, rfl, rfl, hd, ?_⟩
  · rw [hpop, hqp]
    simp
  · apply Data_congr st _ d
    · simp
    · intro i hi
      have : i ≠ p := by
        intro h
        rw [h] at hi
        omega
      simp [Function.update_noteq this]
    · exact hd

/-- Witness of C1 on the scenario stack. -/
theorem push_pop_roundtrip_witness :
    (0 : Int) ≤ scenarioStack.length ∧ scenarioStack.length < (limit : Int) ∧
    ∃ st1 st2 d, scenarioStack.push 5 = .ok ((), st1) ∧ st1.pop = .ok (5, st2) ∧
      scenarioStack.len = .ok (scenarioStack.length, scenarioStack) ∧
      st2.len = .ok (scenarioStack.length, st2) ∧
      scenarioStack.Data = .ok (d, scenarioStack) ∧ st2.Data = .ok (d, st2) :=
  ⟨by decide, by decide, push_pop_roundtrip scenarioStack 5 (by decide) (by decide)⟩

/-- C2: on a stack of the data model (`length <= 2048`) and for
`1 <= n <= length`, `swap(n)` exchanges the element at index
`length-n` with the top element at index `length-1`, leaves every other
element of `Data()` and `len()` unchanged; on contents `[10, 20, 30]`,
`swap(2)` gives `[10, 30, 20]`. -/
theorem swap_exchanges (st : Stack) (n : Int) (hn : 1 ≤ n) (hle : n ≤ st.length)
    (hcap : st.length ≤ (limit : Int)) :
    ∃ st1 d d1, st.swap n = .ok ((), st1) ∧
      st.Data = .ok (d, st) ∧ st1.Data = .ok (d1, st1) ∧
      st1.len = .ok (st.length, st1) ∧
      d.length = st.length.toNat ∧ d1.length = d.length ∧
      d1[(st.length - n).toNat]? = d[(st.length - 1).toNat]? ∧
      d1[(st.length - 1).toNat]? = d[(st.length - n).toNat]? ∧
      (∀ j : Nat, j ≠ (st.length - n).toNat → j ≠ (st.length - 1).toNat → d1[j]? = d[j]?) ∧
      (d = [10, 20, 30] → n = 2 → d1 = [10, 30, 20]) := by
  have hl : (limit : Int) = 2048 := rfl
  obtain ⟨a, b, hav, hbv, hswap⟩ := swap_ok st n hn hle hcap
  obtain ⟨d, hd, hdl, hdg⟩ := Data_ok st (by omega) hcap
  obtain ⟨d1, hd1, hd1l, hd1g⟩ := Data_ok
    { st with data := Function.update (Function.update st.data a (st.data b)) b (st.data a) }
    (by simp only; omega) hcap
  simp only at hd1l hd1g
  have hA : d1[(st.length - n).toNat]? = d[(st.length - 1).toNat]? := by
    rw [← hav, ← hbv, hd1g a.val a.isLt (by omega), hdg b.val b.isLt (by omega)]
    simp only [Fin.eta]
    by_cases hab : a = b
    · rw [hab]
      simp
    · rw [Function.update_noteq hab, Function.update_same]
  have hB : d1[(st.length - 1).toNat]? = d[(st.length - n).toNat]? := by
    rw [← hav, ← hbv, hd1g b.val b.isLt (by omega), hdg a.val a.isLt (by omega)]
    simp
  have hC : ∀ j : Nat, j ≠ (st.length - n).toNat → j ≠ (st.length - 1).toNat →
      d1[j]? = d[j]? := by
    intro j hja hjb
    by_cases hj : (j : Int) < st.length
    · have hjl : j < limit := by omega
      rw [hd1g j hjl hj, hdg j hjl hj]
      have h1 : (⟨j, hjl⟩ : Fin limit) ≠ b := by
        intro h
        apply hjb
        rw [← hbv, ← h]
      have h2 : (⟨j, hjl⟩ : Fin limit) ≠ a := by
        intro h
        apply hja
        rw [← hav, ← h]
      rw [Function.update_noteq h1, Function.update_noteq h2]
    · rw [List.getElem?_eq_none (by omega), List.getElem?_eq_none (by omega)]
  refine ⟨_, d, d1, hswap, hd, hd1, rfl, hdl, by rw [hd1l, hdl], hA, hB, hC, ?_⟩
  intro hd3 hn2
  subst hn2
  subst hd3
  have hlen : st.length = 3 := by
    simp only [List.length_cons, List.length_nil] at hdl
    omega
  rw [hlen] at hA hB hC hd1l
  have h0 := hC 0 (by decide) (by decide)
  match d1, hd1l, hA, hB, h0 with
  | [x, y, z], _, hA, hB, h0 =>
    simp at hA hB h0
    rw [hA, hB, h0]

/-- Witness of C2: the scenario of the specification. -/
theorem swap_exchanges_witness :
    (1 : Int) ≤ 2 ∧ (2 : Int) ≤ scenarioStack.length ∧
    scenarioStack.length ≤ (limit : Int) ∧
    ∃ st1 d d1, scenarioStack.swap 2 = .ok ((), st1) ∧
      scenarioStack.Data = .ok (d, scenarioStack) ∧ st1.Data = .ok (d1, st1) ∧
      st1.len = .ok (scenarioStack.length, st1) ∧
      d.length = scenarioStack.length.toNat ∧ d1.length = d.length ∧
      d1[(scenarioStack.length - 2).toNat]? = d[(scenarioStack.length - 1).toNat]? ∧
      d1[(scenarioStack.length - 1).toNat]? = d[(scenarioStack.length - 2).toNat]? ∧
      (∀ j : Nat, j ≠ (scenarioStack.length - 2).toNat →
        j ≠ (scenarioStack.length - 1).toNat → d1[j]? = d[j]?) ∧
      (d = [10, 20, 30] → (2 : Int) = 2 → d1 = [10, 30, 20]) :=
  ⟨by decide, by decide, by decide,
    swap_exchanges scenarioStack 2 (by decide) (by decide) (by decide)⟩

/-- C3: for `1 <= n <= length < 2048`, `dup(n)` raises `len()` by exactly one,
the new top is the element that was at index `length-n`, and `Data()` after
the call is `Data()` before it with that element appended; on `[10, 30, 20]`,
`dup(2)` gives `[10, 30, 20, 30]`. -/
theorem dup_appends (st : Stack) (n : Int) (hn : 1 ≤ n) (hle : n ≤ st.length)
    (hcap : st.length < (limit : Int)) :
    ∃ st1 d x p, st.Data = .ok (d, st) ∧ d[(st.length - n).toNat]? = some x ∧
      st.dup n = .ok ((), st1) ∧
      st1.len = .ok (st.length + 1, st1) ∧
      st1.peek = .ok (p, st1) ∧ st1.load p = x ∧
      st1.Data = .ok (d ++ [x], st1) ∧
      (d = [10, 30, 20] → n = 2 → d ++ [x] = [10, 30, 20, 30]) := by
  have hl : (limit : Int) = 2048 := rfl
  obtain ⟨a, p, hav, hpv, hdup⟩ := dup_ok st n hn hle hcap
  obtain ⟨d, hd, hdl, hdg⟩ := Data_ok st (by omega) (by omega)
  obtain ⟨q, hqv, hpeek⟩ := peek_ok
    { data := Function.update st.data p (st.data a), length := st.length + 1 }
    (by simp only; omega) (by simp only; omega)
  simp only at hqv
  have hqp : q = p := by
    apply Fin.ext
    rw [hqv, hpv]
    simp
  have hx : d[(st.length - n).toNat]? = some (st.data a) := by
    rw [← hav, hdg a.val a.isLt (by omega)]
  refine ⟨_, d, st.data a, q, hd, hx, hdup, rfl, hpeek, ?_, ?_, ?_⟩
  · rw [hqp]
    simp [Stack.load]
  · apply Data_of_spec
    · simp only
      omega
    · simp only
      omega
    · simp only [List.length_append, List.length_cons, List.length_nil]
      omega
    · intro j hj hlt
      simp only at hlt ⊢
      by_cases hjl : (j : Int) < st.length
      · rw [List.getElem?_append_left (by omega), hdg j hj hjl]
        have : (⟨j, hj⟩ : Fin limit) ≠ p := by
          intro h
          have := congrArg Fin.val h
          simp only at this
          omega
        rw [Function.update_noteq this]
      · have hjd : j = d.length := by omega
        have : (⟨j, hj⟩ : Fin limit) = p := by
          apply Fin.ext
          simp only
          omega
        rw [this, Function.update_same, hjd]
        simp
  · intro hd3 hn2
    subst hn2
    subst hd3
    have hlen : st.length = 3 := by
      simp only [List.length_cons, List.length_nil] at hdl
      omega
    rw [hlen] at hx
    simp at hx
    rw [← hx]
    rfl

/-- Witness of C3: the scenario of the specification before its `dup(2)`, at
an input where every hypothesis holds. -/
theorem dup_appends_witness :
    (1 : Int) ≤ 2 ∧ (2 : Int) ≤ scenarioStack.length ∧
    scenarioStack.length < (limit : Int) ∧
    ∃ st1 d x p, scenarioStack.Data = .ok (d, scenarioStack) ∧
      d[(scenarioStack.length - 2).toNat]? = some x ∧
      scenarioStack.dup 2 = .ok ((), st1) ∧
      st1.len = .ok (scenarioStack.length + 1, st1) ∧
      st1.peek = .ok (p, st1) ∧ st1.load p = x ∧
      st1.Data = .ok (d ++ [x], st1) ∧
      (d = [10, 30, 20] → (2 : Int) = 2 → d ++ [x] = [10, 30, 20, 30]) :=
  ⟨by decide, by decide, by decide,
    dup_appends scenarioStack 2 (by decide) (by decide) (by decide)⟩

/-! ### Batch push -/

theorem copyInto_congr (d1 d2 : Fin limit → Word) (l1 l2 h1 h2 : Nat) (p1 : h1 ≤ limit)
    (p2 : h2 ≤ limit) (ds : List Word) (hd : d1 = d2) (hlow : l1 = l2) (h : h1 = h2) :
    copyInto d1 l1 h1 p1 ds = copyInto d2 l2 h2 p2 ds := by
  subst hd
  subst hlow
  subst h
  rfl

theorem copyInto_cons (data : Fin limit → Word) (low high : Nat) (hh : high ≤ limit)
    (v : Word) (vs : List Word) (h : low < high) :
    copyInto data low high hh (v :: vs) =
      copyInto (Function.update data ⟨low, lt_of_lt_of_le h hh⟩ v) (low + 1) high hh vs := by
  rw [copyInto, dif_pos h]

theorem copyInto_below (ds : List Word) :
    ∀ (data : Fin limit → Word) (low high : Nat) (hh : high ≤ limit) (i : Fin limit),
      i.val < low → copyInto data low high hh ds i = data i := by
  induction ds with
  | nil =>
    intro data low high hh i _
    rfl
  | cons v vs ih =>
    intro data low high hh i hi
    unfold copyInto
    split
    · rw [ih _ _ _ _ _ (by omega)]
      apply Function.update_noteq
      intro h
      have := congrArg Fin.val h
      simp only at this
      omega
    · rfl

theorem copyInto_at (ds : List Word) :
    ∀ (data : Fin limit → Word) (low high : Nat) (hh : high ≤ limit),
      low + ds.length ≤ high → ∀ (j : Nat) (hi : low + j < limit),
      j < ds.length → ds[j]? = some (copyInto data low high hh ds ⟨low + j, hi⟩) := by
  induction ds with
  | nil =>
    intro data low high hh _ j _ hj
    simp at hj
  | cons v vs ih =>
    intro data low high hh hfit j hi hj
    simp only [List.length_cons] at hfit hj
    unfold copyInto
    rw [dif_pos (by omega)]
    cases j with
    | zero =>
      rw [copyInto_below vs _ _ _ _ _ (by simp)]
      simp
    | succ k =>
      have hk := ih (Function.update data ⟨low, by omega⟩ v) (low + 1) high hh
        (by omega) k (by omega) (by omega)
      simp only [List.getElem?_cons_succ]
      rw [hk]
      congr 2
      apply Fin.ext
      simp only
      omega

theorem pushN_ok (st : Stack) (ds : List Word) (h0 : 0 ≤ st.length)
    (hcap : st.length + (ds.length : Int) ≤ (limit : Int)) :
    ∃ hh : st.length.toNat + ds.length ≤ limit,
      st.pushN ds = .ok ((), { data := copyInto st.data st.length.toNat
                                 (st.length.toNat + ds.length) hh ds,
                               length := st.length + (ds.length : Int) }) := by
  have hl : (limit : Int) = 2048 := rfl
  have hw : wrapInt (st.length + (ds.length : Int)) = st.length + (ds.length : Int) :=
    wrapInt_of_range _ (by omega) (by omega)
  refine ⟨by omega, ?_⟩
  unfold Stack.pushN
  simp only [hw]
  rw [dif_pos ⟨h0, by omega, hcap⟩]
  congr 3
  apply copyInto_congr
  · rfl
  · rfl
  · omega

theorem pushAll_ok (ds : List Word) :
    ∀ (st : Stack), 0 ≤ st.length → st.length + (ds.length : Int) ≤ (limit : Int) →
    ∃ hh : st.length.toNat + ds.length ≤ limit,
      st.pushAll ds = .ok ((), { data := copyInto st.data st.length.toNat
                                   (st.length.toNat + ds.length) hh ds,
                                 length := st.length + (ds.length : Int) }) := by
  have hl : (limit : Int) = 2048 := rfl
  induction ds with
  | nil =>
    intro st h0 hcap
    refine ⟨by simp only [List.length_nil]; omega, ?_⟩
    simp [Stack.pushAll, copyInto]
  | cons v vs ih =>
    intro st h0 hcap
    simp only [List.length_cons, Nat.cast_add, Nat.cast_one] at hcap
    obtain ⟨p, hpv, hpush⟩ := push_ok st v h0 (by omega)
    obtain ⟨hh, hrec⟩ := ih
      { data := Function.update st.data p v, length := st.length + 1 }
      (by simp only; omega) (by simp only; omega)
    have hlt : st.length.toNat < st.length.toNat + (v :: vs).length := by
      simp only [List.length_cons]
      omega
    have hbound : st.length.toNat + (v :: vs).length ≤ limit := by
      simp only [List.length_cons]
      omega
    refine ⟨hbound, ?_⟩
    rw [copyInto_cons _ _ _ _ _ _ hlt]
    simp only [Stack.pushAll, hpush]
    rw [hrec]
    congr 3
    · apply copyInto_congr
      · simp only
        have hp : p = ⟨st.length.toNat, lt_of_lt_of_le hlt hbound⟩ := Fin.ext hpv
        rw [hp]
      · simp only
        omega
      · simp only [List.length_cons]
        omega
    · simp only [List.length_cons, Nat.cast_add, Nat.cast_one]
      omega

/-- C4: when `0 <= length` and `length + k <= 2048`, `pushN(v1..vk)` gives
exactly the stack that `push(v1)`, ..., `push(vk)` give in that order: the
length grows by `k`, `Data()` is the old `Data()` followed by `v1..vk`, and
for `k = 0` the stack is unchanged. -/
theorem pushN_eq_pushAll (st : Stack) (ds : List Word) (h0 : 0 ≤ st.length)
    (hcap : st.length + (ds.length : Int) ≤ (limit : Int)) :
    ∃ st1 d, st.pushN ds = .ok ((), st1) ∧ st.pushAll ds = .ok ((), st1) ∧
      st1.len = .ok (st.length + (ds.length : Int), st1) ∧
      st.Data = .ok (d, st) ∧ st1.Data = .ok (d ++ ds, st1) ∧
      (ds = [] → st1 = st) := by
  have hl : (limit : Int) = 2048 := rfl
  obtain ⟨hh, hN⟩ := pushN_ok st ds h0 hcap
  obtain ⟨_, hA⟩ := pushAll_ok ds st h0 hcap
  obtain ⟨d, hd, hdl, hdg⟩ := Data_ok st h0 (by omega)
  refine ⟨_, d, hN, hA, rfl, hd, ?_, ?_⟩
  · apply Data_of_spec
    · simp only
      omega
    · exact hcap
    · simp only [List.length_append]
      omega
    · intro j hj hlt
      simp only at hlt ⊢
      by_cases hjl : (j : Int) < st.length
      · rw [List.getElem?_append_left (by omega), hdg j hj hjl,
          copyInto_below ds _ _ _ _ _ (by simp only; omega)]
      · rw [List.getElem?_append_right (by omega)]
        have hidx : st.length.toNat + (j - d.length) < limit := by omega
        rw [copyInto_at ds st.data st.length.toNat _ hh (le_refl _) (j - d.length) hidx
          (by omega)]
        congr 2
        apply Fin.ext
        simp only
        omega
  · intro hnil
    subst hnil
    simp [copyInto]

/-- Witness of C4 on the scenario stack. -/
theorem pushN_eq_pushAll_witness :
    (0 : Int) ≤ scenarioStack.length ∧
    scenarioStack.length + (([1, 2] : List Word).length : Int) ≤ (limit : Int) ∧
    ∃ st1 d, scenarioStack.pushN [1, 2] = .ok ((), st1) ∧
      scenarioStack.pushAll [1, 2] = .ok ((), st1) ∧
      st1.len = .ok (scenarioStack.length + (([1, 2] : List Word).length : Int), st1) ∧
      scenarioStack.Data = .ok (d, scenarioStack) ∧ st1.Data = .ok (d ++ [1, 2], st1) ∧
      (([1, 2] : List Word) = [] → st1 = scenarioStack) :=
  ⟨by decide, by decide, pushN_eq_pushAll scenarioStack [1, 2] (by decide) (by decide)⟩

/-- C5: on a stack of the data model (`0 <= length`) with room for them
(`length + k + 1 <= 2048`), after `push(v0)`, ..., `push(vk)` in
that order `Back(i)` points at a slot holding `v_(k-i)` for every
`0 <= i <= k`; in particular `Back(0)` holds `vk` and `Back(k)` holds `v0`. -/
theorem Back_after_pushes (st : Stack) (vs : List Word) (h0 : 0 ≤ st.length)
    (hcap : st.length + (vs.length : Int) ≤ (limit : Int)) :
    ∃ st1, st.pushAll vs = .ok ((), st1) ∧
      (∀ i : Nat, i < vs.length →
        ∃ p, st1.Back (i : Int) = .ok (p, st1) ∧ vs[vs.length - 1 - i]? = some (st1.load p)) ∧
      (∀ v0 rest, vs = v0 :: rest →
        (∃ p, st1.Back 0 = .ok (p, st1) ∧ vs.getLast? = some (st1.load p)) ∧
        (∃ p, st1.Back (rest.length : Int) = .ok (p, st1) ∧ st1.load p = v0)) := by
  have hl : (limit : Int) = 2048 := rfl
  obtain ⟨hh, hA⟩ := pushAll_ok vs st h0 hcap
  have hgen : ∀ i : Nat, i < vs.length →
      ∃ p, Stack.Back { data := copyInto st.data st.length.toNat
                                  (st.length.toNat + vs.length) hh vs,
                        length := st.length + (vs.length : Int) } (i : Int) =
            .ok (p, { data := copyInto st.data st.length.toNat
                                (st.length.toNat + vs.length) hh vs,
                      length := st.length + (vs.length : Int) }) ∧
          vs[vs.length - 1 - i]? =
            some (Stack.load { data := copyInto st.data st.length.toNat
                                         (st.length.toNat + vs.length) hh vs,
                               length := st.length + (vs.length : Int) } p) := by
    intro i hi
    obtain ⟨p, hpv, hback⟩ := Back_ok
      { data := copyInto st.data st.length.toNat (st.length.toNat + vs.length) hh vs,
        length := st.length + (vs.length : Int) } (i : Int)
      (by omega) (by simp only; omega) (by simp only; omega)
    simp only at hpv
    refine ⟨p, hback, ?_⟩
    have hidx : st.length.toNat + (vs.length - 1 - i) < limit := by omega
    rw [copyInto_at vs st.data st.length.toNat _ hh (le_refl _) (vs.length - 1 - i) hidx
      (by omega)]
    unfold Stack.load
    simp only
    congr 2
    apply Fin.ext
    simp only
    omega
  refine ⟨_, hA, hgen, ?_⟩
  intro v0 rest hvs
  subst hvs
  constructor
  · obtain ⟨p, hp, hval⟩ := hgen 0 (by simp)
    refine ⟨p, by simpa using hp, ?_⟩
    rw [← hval, List.getLast?_eq_getElem?]
    rfl
  · obtain ⟨p, hp, hval⟩ := hgen rest.length (by simp)
    refine ⟨p, hp, ?_⟩
    simp only [List.length_cons, Nat.add_sub_cancel, Nat.sub_self,
      List.getElem?_cons_zero, Option.some.injEq] at hval
    exact hval.symm

/-- Witness of C5: the pushes `10, 20, 30` on a new stack. -/
theorem Back_after_pushes_witness :
    (0 : Int) ≤ Stack.new.length ∧
    Stack.new.length + (([10, 20, 30] : List Word).length : Int) ≤ (limit : Int) ∧
    ∃ st1, Stack.new.pushAll [10, 20, 30] = .ok ((), st1) ∧
      (∀ i : Nat, i < ([10, 20, 30] : List Word).length →
        ∃ p, st1.Back (i : Int) = .ok (p, st1) ∧
          ([10, 20, 30] : List Word)[([10, 20, 30] : List Word).length - 1 - i]? =
            some (st1.load p)) ∧
      (∀ v0 rest, ([10, 20, 30] : List Word) = v0 :: rest →
        (∃ p, st1.Back 0 = .ok (p, st1) ∧
          ([10, 20, 30] : List Word).getLast? = some (st1.load p)) ∧
        (∃ p, st1.Back (rest.length : Int) = .ok (p, st1) ∧ st1.load p = v0)) :=
  ⟨by decide, by decide, Back_after_pushes Stack.new [10, 20, 30] (by decide) (by decide)⟩

/-- C6: on a stack with `0 <= length <= 2048`, `Data()` returns exactly `len()`
elements, the slots `0 .. length-1` bottom to top; no slot at an index from
`length` on has any influence on it; the call leaves the stack as it was. -/
theorem Data_snapshot (st : Stack) (h0 : 0 ≤ st.length)
    (hcap : st.length ≤ (limit : Int)) :
    ∃ d st1, st.Data = .ok (d, st1) ∧ st1 = st ∧
      st.len = .ok ((d.length : Int), st) ∧
      (∀ (j : Nat) (hj : j < limit), (j : Int) < st.length →
        d[j]? = some (st.data ⟨j, hj⟩)) ∧
      (∀ j : Nat, st.length ≤ (j : Int) → d[j]? = none) ∧
      (∀ t : Stack, t.length = st.length →
        (∀ i : Fin limit, (i.val : Int) < st.length → t.data i = st.data i) →
        t.Data = .ok (d, t)) := by
  obtain ⟨d, hd, hdl, hdg⟩ := Data_ok st h0 hcap
  refine ⟨d, st, hd, rfl, ?_, hdg, ?_, ?_⟩
  · unfold Stack.len
    rw [hdl]
    congr 2
    omega
  · intro j hj
    apply List.getElem?_eq_none
    omega
  · intro t hl hag
    exact Data_congr st t d hl hag hd

/-- Witness of C6 on the scenario stack. -/
theorem Data_snapshot_witness :
    (0 : Int) ≤ scenarioStack.length ∧ scenarioStack.length ≤ (limit : Int) ∧
    ∃ d st1, scenarioStack.Data = .ok (d, st1) ∧ st1 = scenarioStack ∧
      scenarioStack.len = .ok ((d.length : Int), scenarioStack) ∧
      (∀ (j : Nat) (hj : j < limit), (j : Int) < scenarioStack.length →
        d[j]? = some (scenarioStack.data ⟨j, hj⟩)) ∧
      (∀ j : Nat, scenarioStack.length ≤ (j : Int) → d[j]? = none) ∧
      (∀ t : Stack, t.length = scenarioStack.length →
        (∀ i : Fin limit, (i.val : Int) < scenarioStack.length →
          t.data i = scenarioStack.data i) →
        t.Data = .ok (d, t)) :=
  ⟨by decide, by decide, Data_snapshot scenarioStack (by decide) (by decide)⟩

/-! ### Pools -/

theorem World.init_inv {α : Type} (good : α → Prop) : World.Inv good (World.init : World α) := by
  intro p hp
  simp [World.init] at hp

theorem getElem?_append_new {α : Type} (l : List α) (x a : α) (p : Nat)
    (h : l[p]? = some a) : (l ++ [x])[p]? = some a := by
  have hp : p < l.length := by
    by_contra hc
    rw [List.getElem?_eq_none (by omega)] at h
    cases h
  rw [List.getElem?_append_left hp]
  exact h

theorem World.new_inv {α : Type} (good : α → Prop) (w : World α) (New : α)
    (hI : World.Inv good w) (hN : good New) :
    World.Inv good { w with heap := w.heap ++ [New] } ∧
      ∃ a, (w.heap ++ [New])[w.heap.length]? = some a ∧ good a := by
  constructor
  · intro p hp
    obtain ⟨a, ha, hg⟩ := hI p hp
    exact ⟨a, getElem?_append_new _ _ _ _ ha, hg⟩
  · refine ⟨New, ?_, hN⟩
    rw [List.getElem?_append_right (le_refl _)]
    simp

theorem World.get_inv {α : Type} (good : α → Prop) (w : World α) (New : α)
    (pick : Option Nat) (hI : World.Inv good w) (hN : good New) :
    World.Inv good (w.get New pick).2 ∧
      ∃ a, (w.get New pick).2.heap[(w.get New pick).1]? = some a ∧ good a := by
  cases pick with
  | none => exact World.new_inv good w New hI hN
  | some i =>
    unfold World.get
    simp only
    cases hp : w.pool[i]? with
    | none => exact World.new_inv good w New hI hN
    | some p =>
      simp only
      have hmem : p ∈ w.pool := by
        rw [List.mem_iff_getElem?]
        exact ⟨i, hp⟩
      constructor
      · intro q hq
        exact hI q (List.mem_of_mem_eraseIdx hq)
      · exact hI p hmem

theorem World.drop_inv {α : Type} (good : α → Prop) (w : World α) (i : Nat)
    (hI : World.Inv good w) : World.Inv good (w.drop i) := by
  intro q hq
  exact hI q (List.mem_of_mem_eraseIdx hq)

theorem World.modify_inv {α : Type} (good : α → Prop) (w : World α) (s : Nat)
    (f : α → α) (hI : World.Inv good w) (hs : s ∉ w.pool) :
    World.Inv good (w.modify s f) := by
  intro p hp
  obtain ⟨a, ha, hg⟩ := hI p hp
  refine ⟨a, ?_, hg⟩
  have hne : s ≠ p := by
    intro h
    apply hs
    rw [h]
    exact hp
  show (w.heap.modify f s)[p]? = some a
  rw [List.getElem?_modify, ha]
  simp [hne]

theorem World.release_inv {α : Type} (good : α → Prop) (w : World α) (s : Nat)
    (f : α → α) (hI : World.Inv good w) (hs : s < w.heap.length)
    (hf : ∀ a, good (f a)) :
    World.Inv good ((w.modify s f).put s) := by
  intro p hp
  show ∃ a, (w.heap.modify f s)[p]? = some a ∧ good a
  rw [List.getElem?_modify]
  by_cases hsp : s = p
  · subst hsp
    rw [List.getElem?_eq_getElem hs]
    exact ⟨f w.heap[s], by simp, hf _⟩
  · have hp2 : p ∈ w.pool := by
      have : p ∈ s :: w.pool := hp
      rw [List.mem_cons] at this
      rcases this with h | h
      · exact absurd h.symm hsp
      · exact h
    obtain ⟨a, ha, hg⟩ := hI p hp2
    exact ⟨a, by simp [ha, hsp], hg⟩

theorem World.modify_pres_inv {α : Type} (good : α → Prop) (w : World α) (s : Nat)
    (f : α → α) (hI : World.Inv good w) (hf : ∀ a, good a → good (f a)) :
    World.Inv good (w.modify s f) := by
  intro p hp
  obtain ⟨a, ha, hg⟩ := hI p hp
  show ∃ b, (w.heap.modify f s)[p]? = some b ∧ good b
  rw [List.getElem?_modify, ha]
  by_cases hsp : s = p
  · exact ⟨f a, by simp [hsp], hf a hg⟩
  · exact ⟨a, by simp [hsp], hg⟩

theorem returnStack_inv (w : World Stack) (s : Nat)
    (hI : World.Inv (fun st => st.length = 0) w) :
    World.Inv (fun st => st.length = 0) (returnStack w s) := by
  unfold returnStack
  split
  · rename_i hs
    exact World.release_inv _ w s _ hI hs (fun _ => rfl)
  · exact hI

theorem returnRStack_inv (w : World ReturnStack) (rs : Nat)
    (hI : World.Inv (fun st => st.data = []) w) :
    World.Inv (fun st => st.data = []) (returnRStack w rs) := by
  unfold returnRStack
  split
  · rename_i hs
    exact World.release_inv _ w rs _ hI hs (fun a => List.take_zero a.data)
  · exact hI

theorem step_inv (w : World Stack) (c : Call)
    (hI : World.Inv (fun st => st.length = 0) w) (ha : noIdleUse w c = true) :
    World.Inv (fun st => st.length = 0) (step w c).1 ∧
      (∀ x ∈ (step w c).2, ∃ st, x = some st ∧ st.length = 0) ∧
      (step w c).2.length = acquisitions [c] := by
  cases c with
  | newstack pick =>
    obtain ⟨hinv, a, ha, hg⟩ := World.get_inv (fun st : Stack => st.length = 0) w Stack.new
      pick hI rfl
    refine ⟨hinv, ?_, rfl⟩
    intro x hx
    have hx2 : x = (w.get Stack.new pick).2.heap[(w.get Stack.new pick).1]? := by
      simpa [step, newstack] using hx
    exact ⟨a, by rw [hx2]; exact ha, hg⟩
  | returnStack s =>
    refine ⟨returnStack_inv w s hI, ?_, rfl⟩
    intro x hx
    simp [step] at hx
  | method s m =>
    have hs : s ∉ w.pool := by
      simpa [noIdleUse] using ha
    refine ⟨World.modify_inv _ w s _ hI hs, ?_, rfl⟩
    intro x hx
    simp [step] at hx
  | store s p v =>
    refine ⟨World.modify_pres_inv _ w s _ hI (fun a hg => hg), ?_, rfl⟩
    intro x hx
    simp [step] at hx
  | drop i =>
    refine ⟨World.drop_inv _ w i hI, ?_, rfl⟩
    intro x hx
    simp [step] at hx

theorem acquisitions_cons (c : Call) (cs : List Call) :
    acquisitions (c :: cs) = acquisitions [c] + acquisitions cs := by
  cases c <;> simp [acquisitions, Nat.add_comm]

theorem run_inv (cs : List Call) :
    ∀ w : World Stack, World.Inv (fun st => st.length = 0) w → disciplined w cs = true →
      World.Inv (fun st => st.length = 0) (run w cs).1 ∧
        (∀ x ∈ (run w cs).2, ∃ st, x = some st ∧ st.length = 0) ∧
        (run w cs).2.length = acquisitions cs := by
  induction cs with
  | nil =>
    intro w hI _
    exact ⟨hI, by simp [run], rfl⟩
  | cons c cs ih =>
    intro w hI hd
    have hd2 : noIdleUse w c = true ∧ disciplined (step w c).1 cs = true := by
      simpa [disciplined] using hd
    obtain ⟨hI2, ho, hl⟩ := step_inv w c hI hd2.1
    obtain ⟨hI3, hos, hls⟩ := ih (step w c).1 hI2 hd2.2
    refine ⟨hI3, ?_, ?_⟩
    · intro x hx
      have hx2 : x ∈ (step w c).2 ++ (run (step w c).1 cs).2 := hx
      rw [List.mem_append] at hx2
      rcases hx2 with hx2 | hx2
      · exact ho x hx2
      · exact hos x hx2
    · show ((step w c).2 ++ (run (step w c).1 cs).2).length = _
      rw [List.length_append, hl, hls, acquisitions_cons c cs]

theorem empty_len_Data (st : Stack) (h : st.length = 0) :
    st.len = .ok (0, st) ∧ st.Data = .ok ([], st) := by
  constructor
  · unfold Stack.len
    rw [h]
  · apply Data_of_spec
    · omega
    · rw [h]
      exact Int.ofNat_zero_le _
    · rw [h]
      rfl
    · intro j hj hlt
      omega

/-- C7 fails as stated: acquire, release, push 1 on the released instance,
acquire again.  Instances enter the pool through `returnStack` only, and the
second `newstack` hands out the pooled instance with `len() == 1`. -/
theorem newstack_after_stale_push :
    ∃ w s0 s1, run World.init staleUseCalls = (w, [some s0, some s1]) ∧
      s1.len = .ok (1, s1) ∧ s1.len ≠ .ok (0, s1) := by
  refine ⟨_, _, _, rfl, rfl, ?_⟩
  intro h
  injection h with h
  injection h with h _
  revert h
  decide

/-- C7, amended: in every history of `newstack`/`returnStack` calls, stack
operations and pointer writes from program start (so that instances enter the
pool through `returnStack` only) in which no method is called on an instance
while it is idle in the pool, every `newstack` call returns a stack with
`len() == 0` and empty `Data()`, whether newly constructed or released
holding elements. -/
theorem newstack_returns_empty (cs : List Call) (h : disciplined World.init cs = true) :
    (run World.init cs).2.length = acquisitions cs ∧
      ∀ x ∈ (run World.init cs).2,
        ∃ st, x = some st ∧ st.len = .ok (0, st) ∧ st.Data = .ok ([], st) := by
  obtain ⟨-, hobs, hlen⟩ := run_inv cs World.init (World.init_inv _) h
  refine ⟨hlen, ?_⟩
  intro x hx
  obtain ⟨st, hst, hl⟩ := hobs x hx
  exact ⟨st, hst, empty_len_Data st hl⟩

/-- Witness of C7 (amended): acquire, push 1, release, acquire again; the
second acquisition hands out the released instance, the stale `1` still in
slot 0. -/
theorem newstack_returns_empty_witness :
    disciplined World.init scenarioCalls = true ∧
    (∃ w s0 s1, run World.init scenarioCalls = (w, [some s0, some s1]) ∧
      s1.data ⟨0, by decide⟩ = 1) ∧
    (run World.init scenarioCalls).2.length = acquisitions scenarioCalls ∧
    ∀ x ∈ (run World.init scenarioCalls).2,
      ∃ st, x = some st ∧ st.len = .ok (0, st) ∧ st.Data = .ok ([], st) :=
  ⟨by decide, ⟨_, _, _, rfl, rfl⟩, newstack_returns_empty scenarioCalls (by decide)⟩

theorem rstep_inv (w : World ReturnStack) (c : RCall)
    (hI : World.Inv (fun st => st.data = []) w) (ha : rnoIdleUse w c = true) :
    World.Inv (fun st => st.data = []) (rstep w c).1 ∧
      (∀ x ∈ (rstep w c).2, ∃ st, x = some st ∧ st.data = []) ∧
      (rstep w c).2.length = racquisitions [c] := by
  cases c with
  | newReturnStack pick =>
    obtain ⟨hinv, a, ha, hg⟩ := World.get_inv (fun st : ReturnStack => st.data = []) w
      ReturnStack.new pick hI rfl
    refine ⟨hinv, ?_, rfl⟩
    intro x hx
    have hx2 : x = (w.get ReturnStack.new pick).2.heap[(w.get ReturnStack.new pick).1]? := by
      simpa [rstep, newReturnStack] using hx
    exact ⟨a, by rw [hx2]; exact ha, hg⟩
  | returnRStack s =>
    refine ⟨returnRStack_inv w s hI, ?_, rfl⟩
    intro x hx
    simp [rstep] at hx
  | method s m =>
    have hs : s ∉ w.pool := by
      simpa [rnoIdleUse] using ha
    refine ⟨World.modify_inv _ w s _ hI hs, ?_, rfl⟩
    intro x hx
    simp [rstep] at hx
  | drop i =>
    refine ⟨World.drop_inv _ w i hI, ?_, rfl⟩
    intro x hx
    simp [rstep] at hx

theorem racquisitions_cons (c : RCall) (cs : List RCall) :
    racquisitions (c :: cs) = racquisitions [c] + racquisitions cs := by
  cases c <;> simp [racquisitions, Nat.add_comm]

theorem rrun_inv (cs : List RCall) :
    ∀ w : World ReturnStack, World.Inv (fun st => st.data = []) w →
      rdisciplined w cs = true →
      World.Inv (fun st => st.data = []) (rrun w cs).1 ∧
        (∀ x ∈ (rrun w cs).2, ∃ st, x = some st ∧ st.data = []) ∧
        (rrun w cs).2.length = racquisitions cs := by
  induction cs with
  | nil =>
    intro w hI _
    exact ⟨hI, by simp [rrun], rfl⟩
  | cons c cs ih =>
    intro w hI hd
    have hd2 : rnoIdleUse w c = true ∧ rdisciplined (rstep w c).1 cs = true := by
      simpa [rdisciplined] using hd
    obtain ⟨hI2, ho, hl⟩ := rstep_inv w c hI hd2.1
    obtain ⟨hI3, hos, hls⟩ := ih (rstep w c).1 hI2 hd2.2
    refine ⟨hI3, ?_, ?_⟩
    · intro x hx
      have hx2 : x ∈ (rstep w c).2 ++ (rrun (rstep w c).1 cs).2 := hx
      rw [List.mem_append] at hx2
      rcases hx2 with hx2 | hx2
      · exact ho x hx2
      · exact hos x hx2
    · show ((rstep w c).2 ++ (rrun (rstep w c).1 cs).2).length = _
      rw [List.length_append, hl, hls, racquisitions_cons c cs]

/-- C8 fails as stated: acquire, release, push 1 on the released instance,
acquire again.  Instances enter the pool through `returnRStack` only, and the
second `newReturnStack` hands out the pooled instance with the sequence
`[1]`. -/
theorem newReturnStack_after_stale_push :
    ∃ w s0 s1, rrun World.init staleUseRCalls = (w, [some s0, some s1]) ∧
      s1.data = [1] ∧ s1.data.length = 1 :=
  ⟨_, _, _, rfl, rfl, rfl⟩

/-- C8, amended: in every history of `newReturnStack`/`returnRStack` calls and
`ReturnStack` pushes and pops from program start (so that instances enter the
pool through `returnRStack` only) in which no push or pop is made on a
pooled (idle) instance, every `newReturnStack` call returns a `ReturnStack`
whose sequence is empty; `returnRStack` truncates the sequence of what it
puts into the pool to length zero, and a newly constructed one starts
empty. -/
theorem newReturnStack_returns_empty (cs : List RCall)
    (h : rdisciplined World.init cs = true) :
    ((rrun World.init cs).2.length = racquisitions cs ∧
      ∀ x ∈ (rrun World.init cs).2,
        ∃ st, x = some st ∧ st.data = [] ∧ st.data.length = 0) ∧
    (∀ (v : World ReturnStack) (rs : Nat) (a : ReturnStack), v.heap[rs]? = some a →
      rs ∈ (returnRStack v rs).pool ∧
      ∃ b, (returnRStack v rs).heap[rs]? = some b ∧ b.data = [] ∧ b.data.length = 0) ∧
    ReturnStack.new.data = [] := by
  obtain ⟨-, hobs, hlen⟩ := rrun_inv cs World.init (World.init_inv _) h
  refine ⟨⟨hlen, ?_⟩, ?_, rfl⟩
  · intro x hx
    obtain ⟨st, hst, hl⟩ := hobs x hx
    exact ⟨st, hst, hl, by rw [hl]; rfl⟩
  · intro v rs a ha
    have hrs : rs < v.heap.length := by
      by_contra hc
      rw [List.getElem?_eq_none (by omega)] at ha
      cases ha
    unfold returnRStack
    rw [if_pos hrs]
    constructor
    · show rs ∈ rs :: v.pool
      exact List.mem_cons_self _ _
    · refine ⟨{ a with data := a.data.take 0 }, ?_, List.take_zero a.data, by simp⟩
      show (v.heap.modify (fun st => { st with data := st.data.take 0 }) rs)[rs]? = _
      rw [List.getElem?_modify_eq, ha]
      rfl

/-- Witness of C8 (amended): acquire, push 1, release, acquire again; the
second acquisition hands out the released instance. -/
theorem newReturnStack_returns_empty_witness :
    rdisciplined World.init scenarioRCalls = true ∧
    (∃ w s0 s1, rrun World.init scenarioRCalls = (w, [some s0, some s1])) ∧
    (((rrun World.init scenarioRCalls).2.length = racquisitions scenarioRCalls ∧
      ∀ x ∈ (rrun World.init scenarioRCalls).2,
        ∃ st, x = some st ∧ st.data = [] ∧ st.data.length = 0) ∧
    (∀ (v : World ReturnStack) (rs : Nat) (a : ReturnStack), v.heap[rs]? = some a →
      rs ∈ (returnRStack v rs).pool ∧
      ∃ b, (returnRStack v rs).heap[rs]? = some b ∧ b.data = [] ∧ b.data.length = 0) ∧
    ReturnStack.new.data = []) :=
  ⟨by decide, ⟨_, _, _, rfl⟩,
    newReturnStack_returns_empty scenarioRCalls (by decide)⟩

/-! ### Return stack order -/

theorem ReturnStack.pop_append (l : List Addr) (a : Addr) :
    ReturnStack.pop { data := l ++ [a] } = .ok (a, { data := l }) := by
  unfold ReturnStack.pop
  have hlen : (l ++ [a]).length = l.length + 1 := by simp
  have hi : ((((l ++ [a]).length : Nat) : Int) - 1).toNat = l.length := by
    rw [hlen]
    omega
  simp only
  rw [dif_pos (by rw [hlen]; omega)]
  congr 2
  · rw [List.get_eq_getElem]
    simp only [hi]
    simp
  · congr 1
    rw [hi]
    simp

theorem ReturnStack.pushAll_appends (as : List Addr) :
    ∀ st : ReturnStack, st.pushAll as = .ok ((), { data := st.data ++ as }) := by
  induction as with
  | nil =>
    intro st
    simp [ReturnStack.pushAll]
  | cons a as ih =>
    intro st
    simp only [ReturnStack.pushAll, ReturnStack.push]
    rw [ih]
    simp

theorem ReturnStack.popN_ok (rs : List Addr) :
    ∀ pre : List Addr,
      ReturnStack.popN { data := pre ++ rs.reverse } rs.length = .ok (rs, { data := pre }) := by
  induction rs with
  | nil =>
    intro pre
    simp [ReturnStack.popN]
  | cons a t ih =>
    intro pre
    have : pre ++ (a :: t).reverse = (pre ++ t.reverse) ++ [a] := by simp
    rw [this]
    simp only [List.length_cons, ReturnStack.popN]
    rw [ReturnStack.pop_append]
    simp only
    rw [ih]

/-- C9: on every `ReturnStack`, the pushes of `addr1, ..., addrk` followed by
`k` pops return `addrk, ..., addr1` in that order; no push and no pop faults,
and the sequence afterwards is the sequence before the pushes. -/
theorem ReturnStack.push_pop_reverse (st : ReturnStack) (addrs : List Addr) :
    ∃ st1, st.pushAll addrs = .ok ((), st1) ∧
      st1.popN addrs.length = .ok (addrs.reverse, st) := by
  refine ⟨_, ReturnStack.pushAll_appends addrs st, ?_⟩
  have h := ReturnStack.popN_ok addrs.reverse st.data
  rw [List.reverse_reverse, List.length_reverse] at h
  exact h

/-- C10: on a stack with `1 <= length <= 2048`, `swap(1)` leaves the stack as
it was: same `len()`, same `Data()`, the same value in every backing slot. -/
theorem swap_one_noop (st : Stack) (h1 : 1 ≤ st.length) (hcap : st.length ≤ (limit : Int)) :
    ∃ st1 d, st.swap 1 = .ok ((), st1) ∧
      st.len = .ok (st.length, st) ∧ st1.len = .ok (st.length, st1) ∧
      st.Data = .ok (d, st) ∧ st1.Data = .ok (d, st1) ∧
      (∀ i : Fin limit, st1.data i = st.data i) ∧ st1 = st := by
  obtain ⟨a, b, hav, hbv, hswap⟩ := swap_ok st 1 (le_refl _) h1 hcap
  obtain ⟨d, hd, -, -⟩ := Data_ok st (by omega) hcap
  have hab : a = b := by
    apply Fin.ext
    rw [hav, hbv]
  have hst : ({ st with
      data := Function.update (Function.update st.data a (st.data b)) b (st.data a) } :
      Stack) = st := by
    rw [hab]
    simp
  rw [hst] at hswap
  exact ⟨st, d, hswap, rfl, rfl, hd, hd, fun _ => rfl, rfl⟩

/-- Witness of C10 on the scenario stack. -/
theorem swap_one_noop_witness :
    (1 : Int) ≤ scenarioStack.length ∧ scenarioStack.length ≤ (limit : Int) ∧
    ∃ st1 d, scenarioStack.swap 1 = .ok ((), st1) ∧
      scenarioStack.len = .ok (scenarioStack.length, scenarioStack) ∧
      st1.len = .ok (scenarioStack.length, st1) ∧
      scenarioStack.Data = .ok (d, scenarioStack) ∧ st1.Data = .ok (d, st1) ∧
      (∀ i : Fin limit, st1.data i = scenarioStack.data i) ∧ st1 = scenarioStack :=
  ⟨by decide, by decide, swap_one_noop scenarioStack (by decide) (by decide)⟩

/-! ### Swap twice, top of stack -/

/-- C11: on a stack of the data model (`length <= 2048`) and for
`2 <= n <= length`, `swap(n)` applied twice in succession gives back exactly
the stack from before: same backing array, same length, same `Data()`. -/
theorem swap_swap_restores (st : Stack) (n : Int) (hn : 2 ≤ n) (hle : n ≤ st.length)
    (hcap : st.length ≤ (limit : Int)) :
    ∃ st1 st2 d, st.swap n = .ok ((), st1) ∧ st1.swap n = .ok ((), st2) ∧
      st2 = st ∧ st2.len = .ok (st.length, st2) ∧
      st.Data = .ok (d, st) ∧ st2.Data = .ok (d, st2) := by
  have hl : (limit : Int) = 2048 := rfl
  obtain ⟨a, b, hav, hbv, hswap⟩ := swap_ok st n (by omega) hle hcap
  obtain ⟨a2, b2, hav2, hbv2, hswap2⟩ := swap_ok
    { st with data := Function.update (Function.update st.data a (st.data b)) b (st.data a) }
    n (by omega) hle hcap
  simp only at hav2 hbv2
  obtain ⟨d, hd, -, -⟩ := Data_ok st (by omega) hcap
  have ha2 : a2 = a := Fin.ext (by rw [hav2, hav])
  have hb2 : b2 = b := Fin.ext (by rw [hbv2, hbv])
  have hab : a ≠ b := by
    intro h
    have := congrArg Fin.val h
    rw [hav, hbv] at this
    omega
  subst ha2
  subst hb2
  have hdata : Function.update (Function.update
      (Function.update (Function.update st.data a2 (st.data b2)) b2 (st.data a2)) a2
      (Function.update (Function.update st.data a2 (st.data b2)) b2 (st.data a2) b2)) b2
      (Function.update (Function.update st.data a2 (st.data b2)) b2 (st.data a2) a2) =
      st.data := by
    funext i
    by_cases hib : i = b2
    · subst hib
      simp [Function.update_noteq hab]
    · by_cases hia : i = a2
      · subst hia
        simp [Function.update_noteq hib]
      · simp [Function.update_noteq hib, Function.update_noteq hia]
  simp only at hswap2
  rw [hdata] at hswap2
  exact ⟨_, st, d, hswap, hswap2, rfl, rfl, hd, hd⟩

/-- Witness of C11 on the scenario stack. -/
theorem swap_swap_restores_witness :
    (2 : Int) ≤ 3 ∧ (3 : Int) ≤ scenarioStack.length ∧
    scenarioStack.length ≤ (limit : Int) ∧
    ∃ st1 st2 d, scenarioStack.swap 3 = .ok ((), st1) ∧ st1.swap 3 = .ok ((), st2) ∧
      st2 = scenarioStack ∧ st2.len = .ok (scenarioStack.length, st2) ∧
      scenarioStack.Data = .ok (d, scenarioStack) ∧ st2.Data = .ok (d, st2) :=
  ⟨by decide, by decide, by decide,
    swap_swap_restores scenarioStack 3 (by decide) (by decide) (by decide)⟩

/-- C12: on a stack of the data model with `1 <= length <= 2048`, `peek()`
and `Back(0)` return the pointer to the slot at index `length-1`, whose value
is the last element of `Data()` and the value `pop()` returns; `peek()` and
`Back(n)` leave the stack as it was; `pop()` lowers `len()` by exactly one and
leaves the remaining elements (and every backing slot) as they were. -/
theorem top_of_stack (st : Stack) (h1 : 1 ≤ st.length) (hcap : st.length ≤ (limit : Int)) :
    ∃ p d st1, st.peek = .ok (p, st) ∧ st.Back 0 = .ok (p, st) ∧
      (p.val : Int) = st.length - 1 ∧
      st.Data = .ok (d, st) ∧ d.getLast? = some (st.load p) ∧
      st.pop = .ok (st.load p, st1) ∧ st1.len = .ok (st.length - 1, st1) ∧
      st1.Data = .ok (d.dropLast, st1) ∧ (∀ i : Fin limit, st1.data i = st.data i) ∧
      (∀ (n : Int) (q : Fin limit) (st2 : Stack), st.Back n = .ok (q, st2) → st2 = st) ∧
      (∀ (q : Fin limit) (st2 : Stack), st.peek = .ok (q, st2) → st2 = st) := by
  have hl : (limit : Int) = 2048 := rfl
  obtain ⟨p, hpv, hpeek⟩ := peek_ok st h1 hcap
  obtain ⟨q, hqv, hback⟩ := Back_ok st 0 (le_refl _) (by omega) hcap
  obtain ⟨r, hrv, hpop⟩ := pop_ok st h1 hcap
  obtain ⟨d, hd, hdl, hdg⟩ := Data_ok st (by omega) hcap
  have hq : q = p := Fin.ext (by rw [hqv, hpv]; simp)
  have hr : r = p := Fin.ext (by rw [hrv, hpv])
  subst hq
  subst hr
  refine ⟨r, d, { st with length := st.length - 1 }, hpeek, hback, by omega, hd, ?_, hpop,
    rfl, ?_, fun _ => rfl, ?_, ?_⟩
  · rw [List.getLast?_eq_getElem?]
    have hidx : d.length - 1 = r.val := by omega
    rw [hidx, hdg r.val r.isLt (by omega)]
    rfl
  · apply Data_of_spec
    · simp only
      omega
    · simp only
      omega
    · simp only [List.length_dropLast]
      omega
    · intro j hj hlt
      simp only at hlt ⊢
      rw [List.dropLast_eq_take, List.getElem?_take_of_lt (by omega)]
      exact hdg j hj (by omega)
  · intro n q st2 h
    unfold Stack.Back at h
    split at h
    · cases h
    · injection h with h
      injection h with _ h
      exact h.symm
  · intro q st2 h
    unfold Stack.peek at h
    split at h
    · cases h
    · injection h with h
      injection h with _ h
      exact h.symm

/-- Witness of C12 on the scenario stack. -/
theorem top_of_stack_witness :
    (1 : Int) ≤ scenarioStack.length ∧ scenarioStack.length ≤ (limit : Int) ∧
    ∃ p d st1, scenarioStack.peek = .ok (p, scenarioStack) ∧
      scenarioStack.Back 0 = .ok (p, scenarioStack) ∧
      (p.val : Int) = scenarioStack.length - 1 ∧
      scenarioStack.Data = .ok (d, scenarioStack) ∧
      d.getLast? = some (scenarioStack.load p) ∧
      scenarioStack.pop = .ok (scenarioStack.load p, st1) ∧
      st1.len = .ok (scenarioStack.length - 1, st1) ∧
      st1.Data = .ok (d.dropLast, st1) ∧
      (∀ i : Fin limit, st1.data i = scenarioStack.data i) ∧
      (∀ (n : Int) (q : Fin limit) (st2 : Stack),
        scenarioStack.Back n = .ok (q, st2) → st2 = scenarioStack) ∧
      (∀ (q : Fin limit) (st2 : Stack),
        scenarioStack.peek = .ok (q, st2) → st2 = scenarioStack) :=
  ⟨by decide, by decide, top_of_stack scenarioStack (by decide) (by decide)⟩

/-! ### Faults -/

theorem slot_eq_none_iff (i : Int) : slot i = none ↔ (i < 0 ∨ (limit : Int) ≤ i) := by
  unfold slot
  split
  · rename_i h
    simp only [reduceCtorEq, false_iff]
    omega
  · rename_i h
    simp only [true_iff]
    omega

theorem faulted_push (st : Stack) (v : Word) :
    faulted (st.push v) = true ↔ slot st.length = none := by
  unfold Stack.push
  cases slot st.length <;> simp [faulted]

theorem faulted_pop (st : Stack) :
    faulted st.pop = true ↔ slot (wrapInt (st.length - 1)) = none := by
  unfold Stack.pop
  cases slot (wrapInt (st.length - 1)) <;> simp [faulted]

theorem faulted_peek (st : Stack) :
    faulted st.peek = true ↔ slot (wrapInt (st.length - 1)) = none := by
  unfold Stack.peek
  cases slot (wrapInt (st.length - 1)) <;> simp [faulted]

theorem faulted_Back (st : Stack) (n : Int) :
    faulted (st.Back n) = true ↔ slot (wrapInt (wrapInt (st.length - n) - 1)) = none := by
  unfold Stack.Back
  cases slot (wrapInt (wrapInt (st.length - n) - 1)) <;> simp [faulted]

theorem faulted_swap (st : Stack) (n : Int) :
    faulted (st.swap n) = true ↔
      (slot (wrapInt (st.length - n)) = none ∨ slot (wrapInt (st.length - 1)) = none) := by
  unfold Stack.swap
  cases slot (wrapInt (st.length - n)) <;> cases slot (wrapInt (st.length - 1)) <;>
    simp [faulted]

theorem faulted_dup (st : Stack) (n : Int) :
    faulted (st.dup n) = true ↔
      (slot (wrapInt (st.length - n)) = none ∨ slot st.length = none) := by
  unfold Stack.dup
  cases slot (wrapInt (st.length - n)) with
  | none => simp [faulted]
  | some a =>
    simp only [reduceCtorEq, false_or]
    exact faulted_push st (st.data a)

theorem faulted_pushN (st : Stack) (ds : List Word) :
    faulted (st.pushN ds) = true ↔
      ¬ (0 ≤ st.length ∧ st.length ≤ wrapInt (st.length + (ds.length : Int)) ∧
          wrapInt (st.length + (ds.length : Int)) ≤ (limit : Int)) := by
  unfold Stack.pushN
  simp only
  split <;> simp_all [faulted]

theorem faulted_eq_false {ρ : Type} (r : Except Fault ρ) :
    faulted r = false ↔ ¬ faulted r = true := by
  cases faulted r <;> simp

/-- C13 fails as stated: on a stack filled to the capacity, `dup(1)` meets the
precondition `1 <= n <= length` and still faults, its push being out of
range. -/
theorem dup_full_faults :
    ((0 : Int) ≤ fullStack.length ∧ fullStack.length ≤ (limit : Int) ∧
      (1 : Int) ≤ 1 ∧ (1 : Int) ≤ fullStack.length) ∧
    faulted (fullStack.dup 1) = true := by
  decide

/-- C13, amended: on a stack with `0 <= length <= 2048` no call faults when
made under its precondition: `push` when `length < 2048`, `pushN` of `k`
values when `length + k <= 2048`, `pop` and `peek` when `length > 0`,
`swap(n)` when `1 <= n <= length`, `dup(n)` when `1 <= n <= length` and
`length < 2048`, `Back(n)` when `0 <= n < length`. -/
theorem ops_within_bounds (st : Stack) (h0 : 0 ≤ st.length)
    (hcap : st.length ≤ (limit : Int)) :
    (st.length < (limit : Int) → ∀ v, faulted (st.push v) = false) ∧
    (∀ ds : List Word, st.length + (ds.length : Int) ≤ (limit : Int) →
      faulted (st.pushN ds) = false) ∧
    (0 < st.length → faulted st.pop = false ∧ faulted st.peek = false) ∧
    (∀ n : Int, 1 ≤ n → n ≤ st.length → faulted (st.swap n) = false) ∧
    (∀ n : Int, 1 ≤ n → n ≤ st.length → st.length < (limit : Int) →
      faulted (st.dup n) = false) ∧
    (∀ n : Int, 0 ≤ n → n < st.length → faulted (st.Back n) = false) := by
  have hl : (limit : Int) = 2048 := rfl
  refine ⟨?_, ?_, ?_, ?_, ?_, ?_⟩
  · intro hlt v
    obtain ⟨p, -, h⟩ := push_ok st v h0 hlt
    rw [h]
    rfl
  · intro ds hfit
    obtain ⟨_, h⟩ := pushN_ok st ds h0 hfit
    rw [h]
    rfl
  · intro hpos
    obtain ⟨p, -, h⟩ := pop_ok st (by omega) hcap
    obtain ⟨q, -, h2⟩ := peek_ok st (by omega) hcap
    rw [h, h2]
    exact ⟨rfl, rfl⟩
  · intro n hn hle
    obtain ⟨a, b, -, -, h⟩ := swap_ok st n hn hle hcap
    rw [h]
    rfl
  · intro n hn hle hlt
    obtain ⟨a, p, -, -, h⟩ := dup_ok st n hn hle hlt
    rw [h]
    rfl
  · intro n hn hlt
    obtain ⟨p, -, h⟩ := Back_ok st n hn hlt hcap
    rw [h]
    rfl

/-- Witness of C13 (amended) on the scenario stack. -/
theorem ops_within_bounds_witness :
    (0 : Int) ≤ scenarioStack.length ∧ scenarioStack.length ≤ (limit : Int) ∧
    (scenarioStack.length < (limit : Int) → ∀ v, faulted (scenarioStack.push v) = false) ∧
    (∀ ds : List Word, scenarioStack.length + (ds.length : Int) ≤ (limit : Int) →
      faulted (scenarioStack.pushN ds) = false) ∧
    (0 < scenarioStack.length →
      faulted scenarioStack.pop = false ∧ faulted scenarioStack.peek = false) ∧
    (∀ n : Int, 1 ≤ n → n ≤ scenarioStack.length → faulted (scenarioStack.swap n) = false) ∧
    (∀ n : Int, 1 ≤ n → n ≤ scenarioStack.length → scenarioStack.length < (limit : Int) →
      faulted (scenarioStack.dup n) = false) ∧
    (∀ n : Int, 0 ≤ n → n < scenarioStack.length →
      faulted (scenarioStack.Back n) = false) :=
  ⟨by decide, by decide, ops_within_bounds scenarioStack (by decide) (by decide)⟩

/-- C14 fails as stated: on the scenario stack (length 3) the depths `0` for
`swap` and `dup` and `-1` for `Back` are outside the valid range, and the
calls return normally: the index they compute, 3, is a slot of the backing
array above the length. -/
theorem depth_below_range_returns :
    ((0 : Int) ≤ scenarioStack.length ∧ scenarioStack.length ≤ (limit : Int) ∧
      (0 : Int) < 1 ∧ (-1 : Int) < 0) ∧
    faulted (scenarioStack.swap 0) = false ∧ faulted (scenarioStack.dup 0) = false ∧
    faulted (scenarioStack.Back (-1)) = false := by
  decide

/-- C14, amended: on a stack with `0 <= length <= 2048` and for a Go `int`
`n`, the call faults exactly when an index it computes is outside the backing
array: `swap(n)` when `n > length`, `length - n >= 2048` or `length = 0`;
`dup(n)` when `n > length`, `length - n >= 2048` or `length = 2048`; `Back(n)`
when `n >= length` or `length - n - 1 >= 2048`.  So a depth above the valid
range always faults, a depth below it only when the index leaves the array. -/
theorem depth_fault_iff (st : Stack) (n : Int) (h0 : 0 ≤ st.length)
    (hcap : st.length ≤ (limit : Int)) (hlo : -9223372036854775808 ≤ n)
    (hhi : n < 9223372036854775808) :
    (faulted (st.swap n) = true ↔
      (st.length < n ∨ (limit : Int) ≤ st.length - n ∨ st.length = 0)) ∧
    (faulted (st.dup n) = true ↔
      (st.length < n ∨ (limit : Int) ≤ st.length - n ∨ st.length = (limit : Int))) ∧
    (faulted (st.Back n) = true ↔
      (st.length ≤ n ∨ (limit : Int) ≤ st.length - n - 1)) ∧
    (st.length < n → faulted (st.swap n) = true ∧ faulted (st.dup n) = true) ∧
    (st.length ≤ n → faulted (st.Back n) = true) := by
  have hl : (limit : Int) = 2048 := rfl
  have hswap : faulted (st.swap n) = true ↔
      (st.length < n ∨ (limit : Int) ≤ st.length - n ∨ st.length = 0) := by
    rw [faulted_swap, slot_eq_none_iff, slot_eq_none_iff]
    unfold wrapInt
    omega
  have hdup : faulted (st.dup n) = true ↔
      (st.length < n ∨ (limit : Int) ≤ st.length - n ∨ st.length = (limit : Int)) := by
    rw [faulted_dup, slot_eq_none_iff, slot_eq_none_iff]
    unfold wrapInt
    omega
  have hback : faulted (st.Back n) = true ↔
      (st.length ≤ n ∨ (limit : Int) ≤ st.length - n - 1) := by
    rw [faulted_Back, slot_eq_none_iff]
    unfold wrapInt
    omega
  refine ⟨hswap, hdup, hback, ?_, ?_⟩
  · intro h
    exact ⟨hswap.2 (Or.inl h), hdup.2 (Or.inl h)⟩
  · intro h
    exact hback.2 (Or.inl h)

/-- Witness of C14 (amended) on the scenario stack at depth 4. -/
theorem depth_fault_iff_witness :
    (0 : Int) ≤ scenarioStack.length ∧ scenarioStack.length ≤ (limit : Int) ∧
    (-9223372036854775808 : Int) ≤ 4 ∧ (4 : Int) < 9223372036854775808 ∧
    (faulted (scenarioStack.swap 4) = true ↔
      (scenarioStack.length < 4 ∨ (limit : Int) ≤ scenarioStack.length - 4 ∨
        scenarioStack.length = 0)) ∧
    (faulted (scenarioStack.dup 4) = true ↔
      (scenarioStack.length < 4 ∨ (limit : Int) ≤ scenarioStack.length - 4 ∨
        scenarioStack.length = (limit : Int))) ∧
    (faulted (scenarioStack.Back 4) = true ↔
      (scenarioStack.length ≤ 4 ∨ (limit : Int) ≤ scenarioStack.length - 4 - 1)) ∧
    (scenarioStack.length < 4 →
      faulted (scenarioStack.swap 4) = true ∧ faulted (scenarioStack.dup 4) = true) ∧
    (scenarioStack.length ≤ 4 → faulted (scenarioStack.Back 4) = true) :=
  ⟨by decide, by decide, by decide, by decide,
    depth_fault_iff scenarioStack 4 (by decide) (by decide) (by decide) (by decide)⟩

/-- C15: on a stack with `0 <= length <= 2048`, `pop()` and `peek()` fault
exactly when `length = 0`; `push(v)` faults exactly when `length = 2048`, so a
push at any length from 1024 to 2047 succeeds; `pushN` of `k` values (`k` the
length of a Go slice, below `2^63`) faults exactly when `length + k > 2048`. -/
theorem fault_conditions (st : Stack) (h0 : 0 ≤ st.length)
    (hcap : st.length ≤ (limit : Int)) :
    (faulted st.pop = true ↔ st.length = 0) ∧
    (faulted st.peek = true ↔ st.length = 0) ∧
    (∀ v : Word, faulted (st.push v) = true ↔ st.length = (limit : Int)) ∧
    (∀ v : Word, 1024 ≤ st.length → st.length ≤ 2047 → faulted (st.push v) = false) ∧
    (∀ ds : List Word, (ds.length : Int) < 9223372036854775808 →
      (faulted (st.pushN ds) = true ↔ (limit : Int) < st.length + (ds.length : Int))) := by
  have hl : (limit : Int) = 2048 := rfl
  have hpush : ∀ v : Word, faulted (st.push v) = true ↔ st.length = (limit : Int) := by
    intro v
    rw [faulted_push, slot_eq_none_iff]
    omega
  refine ⟨?_, ?_, hpush, ?_, ?_⟩
  · rw [faulted_pop, slot_eq_none_iff]
    unfold wrapInt
    omega
  · rw [faulted_peek, slot_eq_none_iff]
    unfold wrapInt
    omega
  · intro v hge hle
    rw [faulted_eq_false, hpush v]
    omega
  · intro ds hk
    rw [faulted_pushN]
    unfold wrapInt
    omega

/-- Witness of C15 on the full stack. -/
theorem fault_conditions_witness :
    (0 : Int) ≤ fullStack.length ∧ fullStack.length ≤ (limit : Int) ∧
    (faulted fullStack.pop = true ↔ fullStack.length = 0) ∧
    (faulted fullStack.peek = true ↔ fullStack.length = 0) ∧
    (∀ v : Word, faulted (fullStack.push v) = true ↔ fullStack.length = (limit : Int)) ∧
    (∀ v : Word, 1024 ≤ fullStack.length → fullStack.length ≤ 2047 →
      faulted (fullStack.push v) = false) ∧
    (∀ ds : List Word, (ds.length : Int) < 9223372036854775808 →
      (faulted (fullStack.pushN ds) = true ↔
        (limit : Int) < fullStack.length + (ds.length : Int))) :=
  ⟨by decide, by decide, fault_conditions fullStack (by decide) (by decide)⟩

/-! ### Stale slots -/

theorem agree_update (s t : Stack) (hag : agree s t) (p : Fin limit) (v : Word) (len : Int)
    (hp : (p.val : Int) = s.length) (hlen : len ≤ s.length + 1) :
    agree { data := Function.update s.data p v, length := len }
      { data := Function.update t.data p v, length := len } := by
  refine ⟨rfl, ?_⟩
  intro i hi
  simp only at hi ⊢
  by_cases hip : i = p
  · rw [hip, Function.update_same, Function.update_same]
  · rw [Function.update_noteq hip, Function.update_noteq hip]
    apply hag.2
    have : (i.val : Int) ≠ (p.val : Int) := by
      intro h
      apply hip
      apply Fin.ext
      omega
    omega

theorem agree_shrink (s t : Stack) (hag : agree s t) (len : Int) (hlen : len ≤ s.length) :
    agree { s with length := len } { t with length := len } := by
  refine ⟨rfl, ?_⟩
  intro i hi
  simp only at hi ⊢
  apply hag.2
  omega

theorem dup_full (st : Stack) (n : Int) (hn : 1 ≤ n) (hle : n ≤ st.length)
    (hfull : st.length = (limit : Int)) : st.dup n = .error .boundsError := by
  have hl : (limit : Int) = 2048 := rfl
  obtain ⟨a, ha, -⟩ := slot_of_range (st.length - n) (by omega) (by omega)
  have hnone : slot st.length = none := by
    rw [slot_eq_none_iff]
    omega
  unfold Stack.dup
  rw [wrapInt_of_range _ (by omega) (by omega), ha]
  unfold Stack.push
  rw [hnone]

/-- C16 fails as stated: on a stack filled to the capacity `dup(1)` meets the
precondition `1 <= n <= length`, and the call made on two such stacks (equal
in every slot, there being none above the length) returns no result on
either: it faults. -/
theorem dup_full_no_result :
    ((0 : Int) ≤ fullStack.length ∧ fullStack.length ≤ (limit : Int) ∧
      agree fullStack fullStack ∧ StackOp.pre fullStack (StackOp.dup 1)) ∧
    ¬ ∃ r s1 t1, fullStack.exec (StackOp.dup 1) = .ok (r, s1) ∧
        fullStack.exec (StackOp.dup 1) = .ok (r, t1) ∧ agree s1 t1 := by
  refine ⟨⟨by decide, by decide, ⟨rfl, fun _ _ => rfl⟩, ?_⟩, ?_⟩
  · show (1 : Int) ≤ 1 ∧ (1 : Int) ≤ fullStack.length
    exact ⟨by decide, by decide⟩
  · rintro ⟨r, s1, t1, h, -, -⟩
    have hf : fullStack.exec (StackOp.dup 1) = .error .boundsError := by
      show tagged (fun _ => Ret.unit) (fullStack.dup 1) = _
      rw [dup_full fullStack 1 (by decide) (by decide) rfl]
      rfl
    rw [hf] at h
    cases h

/-- C16, amended: take two stacks of the data model with the same length `L`
and the same values in the slots below `L`, whatever the slots from `L` on
hold.  Any one call made on both with the same arguments under its
precondition, for `dup` with `length < 2048` in addition, returns the same
result on both (for `peek`/`Back` the same pointer, with the same value
behind it) and leaves two stacks that again have the same length and the same
values below it. -/
theorem stale_slots_unobservable (s t : Stack) (o : StackOp) (h0 : 0 ≤ s.length)
    (hcap : s.length ≤ (limit : Int)) (hag : agree s t) (hpre : StackOp.pre s o)
    (hroom : ∀ n : Int, o = StackOp.dup n → s.length < (limit : Int)) :
    ∃ r s1 t1, s.exec o = .ok (r, s1) ∧ t.exec o = .ok (r, t1) ∧ agree s1 t1 ∧
      (∀ p, r = Ret.ptr p → t1.load p = s1.load p) := by
  have hl : (limit : Int) = 2048 := rfl
  obtain ⟨td, tl⟩ := t
  obtain ⟨hlen, hdata⟩ := hag
  simp only at hlen hdata
  subst hlen
  have hag : agree s { data := td, length := s.length } := ⟨rfl, hdata⟩
  cases o with
  | Data =>
    obtain ⟨d, hd, -, -⟩ := Data_ok s h0 hcap
    have ht := Data_congr s { data := td, length := s.length } d rfl hdata hd
    refine ⟨Ret.words d, s, _, ?_, ?_, hag, ?_⟩
    · show tagged _ s.Data = _
      rw [hd]
      rfl
    · show tagged _ (Stack.Data _) = _
      rw [ht]
      rfl
    · intro p hp
      cases hp
  | push d =>
    simp only [StackOp.pre] at hpre
    obtain ⟨p, hpv, hs⟩ := push_ok s d h0 hpre
    obtain ⟨q, hqv, ht⟩ := push_ok { data := td, length := s.length } d h0 hpre
    have hq : q = p := Fin.ext (by rw [hqv, hpv])
    subst hq
    refine ⟨Ret.unit, _, _, ?_, ?_,
      agree_update s _ hag q d (s.length + 1) (by omega) (le_refl _), ?_⟩
    · show tagged _ (s.push d) = _
      rw [hs]
      rfl
    · show tagged _ (Stack.push _ d) = _
      rw [ht]
      rfl
    · intro p hp
      cases hp
  | pushN ds =>
    simp only [StackOp.pre] at hpre
    obtain ⟨hh, hs⟩ := pushN_ok s ds h0 hpre
    obtain ⟨_, ht⟩ := pushN_ok { data := td, length := s.length } ds h0 hpre
    refine ⟨Ret.unit,
      { data := copyInto s.data s.length.toNat (s.length.toNat + ds.length) hh ds,
        length := s.length + (ds.length : Int) },
      { data := copyInto td s.length.toNat (s.length.toNat + ds.length) hh ds,
        length := s.length + (ds.length : Int) }, ?_, ?_, ⟨rfl, ?_⟩, ?_⟩
    · show tagged _ (s.pushN ds) = _
      rw [hs]
      rfl
    · show tagged _ (Stack.pushN _ ds) = _
      rw [ht]
      rfl
    · intro i hi
      simp only at hi ⊢
      by_cases hlow : (i.val : Int) < s.length
      · rw [copyInto_below ds _ _ _ _ _ (by omega), copyInto_below ds _ _ _ _ _ (by omega)]
        exact hdata i hlow
      · have hidx : s.length.toNat + (i.val - s.length.toNat) < limit := by omega
        have hi2 : (⟨s.length.toNat + (i.val - s.length.toNat), hidx⟩ : Fin limit) = i := by
          apply Fin.ext
          simp only
          omega
        have h1 := copyInto_at ds s.data s.length.toNat _ hh (le_refl _)
          (i.val - s.length.toNat) hidx (by omega)
        have h2 := copyInto_at ds td s.length.toNat _ hh (le_refl _)
          (i.val - s.length.toNat) hidx (by omega)
        rw [hi2] at h1 h2
        rw [h1] at h2
        injection h2 with h2
        exact h2.symm
    · intro p hp
      cases hp
  | pop =>
    simp only [StackOp.pre] at hpre
    obtain ⟨p, hpv, hs⟩ := pop_ok s (by omega) hcap
    obtain ⟨q, hqv, ht⟩ := pop_ok { data := td, length := s.length } (by simp only; omega) hcap
    have hq : q = p := Fin.ext (by rw [hqv, hpv])
    subst hq
    simp only at ht
    rw [hdata q (by omega)] at ht
    refine ⟨Ret.word (s.data q), _, _, ?_, ?_,
      agree_shrink s _ hag (s.length - 1) (by omega), ?_⟩
    · show tagged _ s.pop = _
      rw [hs]
      rfl
    · show tagged _ (Stack.pop _) = _
      rw [ht]
      rfl
    · intro p hp
      cases hp
  | len =>
    refine ⟨Ret.int s.length, s, _, rfl, rfl, hag, ?_⟩
    intro p hp
    cases hp
  | swap n =>
    simp only [StackOp.pre] at hpre
    obtain ⟨a, b, hav, hbv, hs⟩ := swap_ok s n hpre.1 hpre.2 hcap
    obtain ⟨a2, b2, hav2, hbv2, ht⟩ := swap_ok { data := td, length := s.length } n
      hpre.1 hpre.2 hcap
    have ha : a2 = a := Fin.ext (by rw [hav2, hav])
    have hb : b2 = b := Fin.ext (by rw [hbv2, hbv])
    subst ha
    subst hb
    simp only at ht
    rw [hdata a2 (by omega), hdata b2 (by omega)] at ht
    refine ⟨Ret.unit,
      { data := Function.update (Function.update s.data a2 (s.data b2)) b2 (s.data a2),
        length := s.length },
      { data := Function.update (Function.update td a2 (s.data b2)) b2 (s.data a2),
        length := s.length }, ?_, ?_, ⟨rfl, ?_⟩, ?_⟩
    · show tagged _ (s.swap n) = _
      rw [hs]
      rfl
    · show tagged _ (Stack.swap _ n) = _
      rw [ht]
      rfl
    · intro i hi
      simp only at hi ⊢
      by_cases hib : i = b2
      · rw [hib, Function.update_same, Function.update_same]
      · rw [Function.update_noteq hib, Function.update_noteq hib]
        by_cases hia : i = a2
        · rw [hia, Function.update_same, Function.update_same]
        · rw [Function.update_noteq hia, Function.update_noteq hia]
          exact hdata i hi
    · intro p hp
      cases hp
  | dup n =>
    simp only [StackOp.pre] at hpre
    have hfull : s.length < (limit : Int) := hroom n rfl
    obtain ⟨a, p, hav, hpv, hs⟩ := dup_ok s n hpre.1 hpre.2 hfull
    obtain ⟨a2, p2, hav2, hpv2, ht⟩ := dup_ok { data := td, length := s.length } n
      hpre.1 hpre.2 hfull
    have ha : a2 = a := Fin.ext (by rw [hav2, hav])
    have hp : p2 = p := Fin.ext (by rw [hpv2, hpv])
    subst ha
    subst hp
    simp only at ht
    rw [hdata a2 (by omega)] at ht
    refine ⟨Ret.unit, _, _, ?_, ?_,
      agree_update s _ hag p2 (s.data a2) (s.length + 1) (by omega) (le_refl _), ?_⟩
    · show tagged _ (s.dup n) = _
      rw [hs]
      rfl
    · show tagged _ (Stack.dup _ n) = _
      rw [ht]
      rfl
    · intro p hp
      cases hp
  | peek =>
    simp only [StackOp.pre] at hpre
    obtain ⟨p, hpv, hs⟩ := peek_ok s (by omega) hcap
    obtain ⟨q, hqv, ht⟩ := peek_ok { data := td, length := s.length } (by simp only; omega) hcap
    have hq : q = p := Fin.ext (by rw [hqv, hpv])
    subst hq
    refine ⟨Ret.ptr q, s, _, ?_, ?_, hag, ?_⟩
    · show tagged _ s.peek = _
      rw [hs]
      rfl
    · show tagged _ (Stack.peek _) = _
      rw [ht]
      rfl
    · intro p hp
      injection hp with hp
      subst hp
      exact hdata q (by omega)
  | Back n =>
    simp only [StackOp.pre] at hpre
    obtain ⟨p, hpv, hs⟩ := Back_ok s n hpre.1 hpre.2 hcap
    obtain ⟨q, hqv, ht⟩ := Back_ok { data := td, length := s.length } n hpre.1 hpre.2 hcap
    have hq : q = p := Fin.ext (by rw [hqv, hpv])
    subst hq
    refine ⟨Ret.ptr q, s, _, ?_, ?_, hag, ?_⟩
    · show tagged _ (s.Back n) = _
      rw [hs]
      rfl
    · show tagged _ (Stack.Back _ n) = _
      rw [ht]
      rfl
    · intro p hp
      injection hp with hp
      subst hp
      exact hdata q (by omega)

theorem agree_staleTwin : agree scenarioStack staleTwin := by
  refine ⟨rfl, ?_⟩
  intro i hi
  have hne : i ≠ (⟨5, by decide⟩ : Fin limit) := by
    intro h
    rw [h] at hi
    revert hi
    decide
  show Function.update scenarioStack.data ⟨5, by decide⟩ 9 i = scenarioStack.data i
  rw [Function.update_noteq hne]

/-- Witness of C16 (amended): `dup(2)` on the scenario stack and on its twin
with another stale value. -/
theorem stale_slots_unobservable_witness :
    (0 : Int) ≤ scenarioStack.length ∧ scenarioStack.length ≤ (limit : Int) ∧
    agree scenarioStack staleTwin ∧ StackOp.pre scenarioStack (StackOp.dup 2) ∧
    (∀ n : Int, StackOp.dup 2 = StackOp.dup n → scenarioStack.length < (limit : Int)) ∧
    ∃ r s1 t1, scenarioStack.exec (StackOp.dup 2) = .ok (r, s1) ∧
      staleTwin.exec (StackOp.dup 2) = .ok (r, t1) ∧ agree s1 t1 ∧
      (∀ p, r = Ret.ptr p → t1.load p = s1.load p) :=
  ⟨by decide, by decide, agree_staleTwin, ⟨by decide, by decide⟩,
    fun _ _ => by decide,
    stale_slots_unobservable scenarioStack staleTwin (StackOp.dup 2) (by decide) (by decide)
      agree_staleTwin ⟨by decide, by decide⟩ (fun _ _ => by decide)⟩

/-! ### The length stays within the backing array -/

theorem tagged_ok {ρ σ : Type} (f : ρ → Ret) (r : Except Fault (ρ × σ)) (x : Ret) (s1 : σ)
    (h : tagged f r = .ok (x, s1)) : ∃ y, r = .ok (y, s1) ∧ x = f y := by
  unfold tagged at h
  split at h
  · rename_i y s
    injection h with h
    injection h with h1 h2
    subst h2
    exact ⟨y, rfl, h1.symm⟩
  · cases h

theorem push_length (st : Stack) (v : Word) (u : Unit) (st1 : Stack)
    (h : st.push v = .ok (u, st1)) :
    0 ≤ st.length ∧ st.length < (limit : Int) ∧ st1.length = st.length + 1 := by
  have hl : (limit : Int) = 2048 := rfl
  unfold Stack.push at h
  split at h
  · cases h
  · rename_i i hi
    have hv := slot_val _ _ hi
    have hlt := i.isLt
    injection h with h
    injection h with _ h
    rw [← h]
    simp only
    rw [wrapInt_of_range _ (by omega) (by omega)]
    omega

theorem exec_length (st : Stack) (o : StackOp) (r : Ret) (st1 : Stack)
    (h0 : 0 ≤ st.length) (hcap : st.length ≤ (limit : Int))
    (h : st.exec o = .ok (r, st1)) : 0 ≤ st1.length ∧ st1.length ≤ (limit : Int) := by
  have hl : (limit : Int) = 2048 := rfl
  cases o with
  | Data =>
    obtain ⟨y, hy, -⟩ := tagged_ok _ _ _ _ h
    obtain ⟨d, hd, -, -⟩ := Data_ok st h0 hcap
    rw [hd] at hy
    injection hy with hy
    injection hy with _ hy
    rw [← hy]
    exact ⟨h0, hcap⟩
  | push d =>
    obtain ⟨y, hy, -⟩ := tagged_ok _ _ _ _ h
    have := push_length st d y st1 hy
    omega
  | pushN ds =>
    obtain ⟨y, hy, -⟩ := tagged_ok _ _ _ _ h
    unfold Stack.pushN at hy
    simp only at hy
    split at hy
    · rename_i hr
      injection hy with hy
      injection hy with _ hy
      rw [← hy]
      simp only
      omega
    · cases hy
  | pop =>
    obtain ⟨y, hy, -⟩ := tagged_ok _ _ _ _ h
    unfold Stack.pop at hy
    split at hy
    · cases hy
    · rename_i i hi
      have hv := slot_val _ _ hi
      have hlt := i.isLt
      injection hy with hy
      injection hy with _ hy
      rw [← hy]
      simp only
      omega
  | len =>
    have h2 : tagged Ret.int st.len = .ok (r, st1) := h
    obtain ⟨y, hy, -⟩ := tagged_ok Ret.int st.len r st1 h2
    unfold Stack.len at hy
    injection hy with hy
    injection hy with _ hy
    rw [← hy]
    exact ⟨h0, hcap⟩
  | swap n =>
    obtain ⟨y, hy, -⟩ := tagged_ok _ _ _ _ h
    unfold Stack.swap at hy
    split at hy
    · injection hy with hy
      injection hy with _ hy
      rw [← hy]
      exact ⟨h0, hcap⟩
    · cases hy
  | dup n =>
    obtain ⟨y, hy, -⟩ := tagged_ok _ _ _ _ h
    unfold Stack.dup at hy
    split at hy
    · cases hy
    · have := push_length st _ y st1 hy
      omega
  | peek =>
    obtain ⟨y, hy, -⟩ := tagged_ok _ _ _ _ h
    unfold Stack.peek at hy
    split at hy
    · cases hy
    · injection hy with hy
      injection hy with _ hy
      rw [← hy]
      exact ⟨h0, hcap⟩
  | Back n =>
    obtain ⟨y, hy, -⟩ := tagged_ok _ _ _ _ h
    unfold Stack.Back at hy
    split at hy
    · cases hy
    · injection hy with hy
      injection hy with _ hy
      rw [← hy]
      exact ⟨h0, hcap⟩

theorem use_length (st : Stack) (u : Use) (h0 : 0 ≤ st.length)
    (hcap : st.length ≤ (limit : Int)) :
    0 ≤ (st.use u).length ∧ (st.use u).length ≤ (limit : Int) := by
  cases u with
  | method o =>
    show 0 ≤ (st.after o).length ∧ (st.after o).length ≤ (limit : Int)
    unfold Stack.after
    cases hx : st.exec o with
    | error e => exact ⟨h0, hcap⟩
    | ok x =>
      obtain ⟨r, st1⟩ := x
      exact exec_length st o r st1 h0 hcap hx
  | store p v => exact ⟨h0, hcap⟩

theorem uses_length (us : List Use) :
    ∀ st : Stack, 0 ≤ st.length → st.length ≤ (limit : Int) →
      0 ≤ (st.uses us).length ∧ (st.uses us).length ≤ (limit : Int) := by
  induction us with
  | nil =>
    intro st h0 hcap
    exact ⟨h0, hcap⟩
  | cons u us ih =>
    intro st h0 hcap
    have h := use_length st u h0 hcap
    exact ih (st.use u) h.1 h.2

/-- C18: from a stack with `0 <= length <= 2048`, every call of `push`,
`pushN`, `pop`, `swap`, `dup`, `peek`, `Back`, `Data` or `len` that returns
without a fault, whatever its arguments, leaves `0 <= length <= 2048`; so
after any sequence of calls and pointer writes the length is in that range,
and from a new or newly acquired stack (length 0) `len()` always reports a
value within `0 .. 2048`. -/
theorem length_invariant (st : Stack) (h0 : 0 ≤ st.length)
    (hcap : st.length ≤ (limit : Int)) :
    (∀ (o : StackOp) (r : Ret) (st1 : Stack), st.exec o = .ok (r, st1) →
      0 ≤ st1.length ∧ st1.length ≤ (limit : Int)) ∧
    (∀ us : List Use, 0 ≤ (st.uses us).length ∧ (st.uses us).length ≤ (limit : Int)) ∧
    (∀ (st0 : Stack) (us : List Use), st0.length = 0 →
      ∃ l, (st0.uses us).len = .ok (l, st0.uses us) ∧ 0 ≤ l ∧ l ≤ (limit : Int)) ∧
    Stack.new.length = 0 := by
  refine ⟨?_, ?_, ?_, rfl⟩
  · intro o r st1 h
    exact exec_length st o r st1 h0 hcap h
  · intro us
    exact uses_length us st h0 hcap
  · intro st0 us hz
    have h := uses_length us st0 (by omega) (by rw [hz]; exact Int.ofNat_zero_le _)
    exact ⟨(st0.uses us).length, rfl, h.1, h.2⟩

/-- Witness of C18 on the scenario stack. -/
theorem length_invariant_witness :
    (0 : Int) ≤ scenarioStack.length ∧ scenarioStack.length ≤ (limit : Int) ∧
    (∀ (o : StackOp) (r : Ret) (st1 : Stack), scenarioStack.exec o = .ok (r, st1) →
      0 ≤ st1.length ∧ st1.length ≤ (limit : Int)) ∧
    (∀ us : List Use,
      0 ≤ (scenarioStack.uses us).length ∧ (scenarioStack.uses us).length ≤ (limit : Int)) ∧
    (∀ (st0 : Stack) (us : List Use), st0.length = 0 →
      ∃ l, (st0.uses us).len = .ok (l, st0.uses us) ∧ 0 ≤ l ∧ l ≤ (limit : Int)) ∧
    Stack.new.length = 0 :=
  ⟨by decide, by decide, length_invariant scenarioStack (by decide) (by decide)⟩

/-! ### Print -/

theorem Print_eq (st : Stack) :
    st.Print =
      .ok (Line.text "### stack ###" ::
        ((List.finRange limit).map (fun i => Line.item i.val (st.data i)) ++
          [Line.text "#############"]), st) := by
  have hpos : 0 < limit := by decide
  unfold Stack.Print
  rewrite [if_pos hpos]
  show Except.ok ([Line.text "### stack ###"] ++
      (List.finRange limit).map (fun i => Line.item i.val (st.data i)) ++
      [Line.text "#############"], st) = _
  rewrite [List.singleton_append, List.cons_append]
  exact Eq.refl _

/-- C19: for every stack, whatever its length, `Print` writes the header
line, then exactly 2048 item lines, one per slot of the backing array with
the indices `0 .. 2047` in order, then the footer line; the lines are the same
for every value of `length`, the `-- empty --` line is never written, and the
stack is left as it was. -/
theorem Print_whole_array (st : Stack) :
    ∃ items : List Line,
      st.Print =
        .ok (Line.text "### stack ###" :: (items ++ [Line.text "#############"]), st) ∧
      items.length = 2048 ∧
      (∀ (i : Nat) (hi : i < limit), items[i]? = some (Line.item i (st.data ⟨i, hi⟩))) ∧
      Line.text "-- empty --" ∉ items ∧
      (∀ l : Int, Stack.Print { st with length := l } =
        .ok (Line.text "### stack ###" :: (items ++ [Line.text "#############"]),
          { st with length := l })) := by
  refine ⟨_, Print_eq st, ?_, ?_, ?_, ?_⟩
  · rw [List.length_map, List.length_finRange, limit]
  · intro i hi
    rw [List.getElem?_map, List.getElem?_eq_getElem (by rw [List.length_finRange]; exact hi),
      List.getElem_finRange]
    exact Eq.refl _
  · intro h
    rw [List.mem_map] at h
    obtain ⟨i, -, hi⟩ := h
    cases hi
  · intro l
    exact Print_eq { st with length := l }

end Vm
